import Mathlib

/-!
Verification of the `ae` event loop and `dict` hash table headers from
redis-6.0.10 (files `ae.h` and `dict.h`).  The headers carry the public
constants, the data structures and the operation macros; the `.c` bodies are
not part of this excerpt, so operation semantics are modelled from the
design document where noted.
-/

set_option autoImplicit false

namespace Ae

/-! ## Public constants of `ae.h` -/

/-- Macro AE_OK of ae.h, defined as 0. -/
def AE_OK : Int := 0

/-- Macro AE_ERR of ae.h, defined as -1. -/
def AE_ERR : Int := -1

/-- Macro AE_NONE of ae.h, defined as 0. -/
def AE_NONE : Nat := 0

/-- Macro AE_READABLE of ae.h, defined as 1. -/
def AE_READABLE : Nat := 1

/-- Macro AE_WRITABLE of ae.h, defined as 2. -/
def AE_WRITABLE : Nat := 2

/-- Macro AE_BARRIER of ae.h, defined as 4. -/
def AE_BARRIER : Nat := 4

/-- Macro AE_FILE_EVENTS of ae.h, defined as 1 shifted left by 0. -/
def AE_FILE_EVENTS : Nat := 1 <<< 0

/-- Macro AE_TIME_EVENTS of ae.h, defined as 1 shifted left by 1. -/
def AE_TIME_EVENTS : Nat := 1 <<< 1

/-- Macro AE_ALL_EVENTS of ae.h, the union of file and time event bits. -/
def AE_ALL_EVENTS : Nat := AE_FILE_EVENTS ||| AE_TIME_EVENTS

/-- Macro AE_DONT_WAIT of ae.h, defined as 1 shifted left by 2. -/
def AE_DONT_WAIT : Nat := 1 <<< 2

/-- Macro AE_CALL_BEFORE_SLEEP of ae.h, defined as 1 shifted left by 3. -/
def AE_CALL_BEFORE_SLEEP : Nat := 1 <<< 3

/-- Macro AE_CALL_AFTER_SLEEP of ae.h, defined as 1 shifted left by 4. -/
def AE_CALL_AFTER_SLEEP : Nat := 1 <<< 4

/-- Macro AE_NOMORE of ae.h, defined as -1. -/
def AE_NOMORE : Int := -1

/-- Macro AE_DELETED_EVENT_ID of ae.h, defined as -1. -/
def AE_DELETED_EVENT_ID : Int := -1

/-! ## File events

The aeFileEvent structure of ae.h: a registration `(mask, rfileProc,
wfileProc, clientData)` indexed by file descriptor.  Callback pointers are
modelled as opaque numeric identifiers. -/

/-- The aeFileEvent structure of ae.h. -/
structure aeFileEvent where
  mask : Nat
  rfileProc : Nat
  wfileProc : Nat
  clientData : Nat
deriving Repr, DecidableEq

instance : Inhabited aeFileEvent :=
  ⟨{ mask := AE_NONE, rfileProc := 0, wfileProc := 0, clientData := 0 }⟩

/-- A callback invocation observed during the dispatch of one fired event:
either the read procedure or the write procedure of the registration. -/
inductive Callback where
  | read
  | write
deriving Repr, DecidableEq

/-- Modelled from the spec: processing of one fired event inside
process_events (the body of aeProcessEvents is not part of this excerpt).
Normal order is read-then-write; if the registered mask contains AE_BARRIER
the order is inverted.  A callback fires only if its direction bit is both
registered and ready, and the write (resp. trailing read) callback is
suppressed when the other direction already fired with the identical
procedure pointer.  Returns the invocation order. -/
def processFiredEvent (fe : aeFileEvent) (readyMask : Nat) : List Callback :=
  let invert : Bool := fe.mask &&& AE_BARRIER != 0
  let readReady : Bool := fe.mask &&& readyMask &&& AE_READABLE != 0
  let writeReady : Bool := fe.mask &&& readyMask &&& AE_WRITABLE != 0
  let firstRead : List Callback :=
    if !invert && readReady then [Callback.read] else []
  let writes : List Callback :=
    if writeReady && (firstRead.isEmpty || fe.wfileProc != fe.rfileProc) then
      [Callback.write]
    else []
  let lastRead : List Callback :=
    if invert && readReady && (writes.isEmpty || fe.wfileProc != fe.rfileProc) then
      [Callback.read]
    else []
  firstRead ++ writes ++ lastRead

/-! ## The event loop and file event registration -/

/-- The aeEventLoop structure of ae.h, restricted to the fields that file
event registration touches: maxfd, setsize and the fd-indexed registration
array. -/
structure aeEventLoop where
  maxfd : Int
  setsize : Nat
  events : List aeFileEvent
deriving Repr, DecidableEq

/-- Modelled from the spec: register(fd, mask, proc, clientData), the body of
aeCreateFileEvent (not part of this excerpt).  Fails with AE_ERR if
fd is not below setsize; otherwise or-combines the mask into the existing
registration, stores the callback for each requested direction, stores the
client data and raises maxfd to fd if needed. -/
def aeCreateFileEvent (loop : aeEventLoop) (fd : Nat) (mask : Nat)
    (proc : Nat) (clientData : Nat) : aeEventLoop × Int :=
  if loop.setsize ≤ fd then (loop, AE_ERR)
  else
    let fe := loop.events.getD fd default
    let fe2 : aeFileEvent :=
      { mask := fe.mask ||| mask
        rfileProc := if mask &&& AE_READABLE != 0 then proc else fe.rfileProc
        wfileProc := if mask &&& AE_WRITABLE != 0 then proc else fe.wfileProc
        clientData := clientData }
    ({ loop with
        events := loop.events.set fd fe2
        maxfd := max loop.maxfd (fd : Int) }, AE_OK)

/-- Modelled from the spec: resize_setsize, the body of aeResizeSetSize (not
part of this excerpt).  Returns AE_OK when the size is unchanged; fails with
AE_ERR when a currently registered fd (maxfd) would not fit; otherwise
shrinks or pads the registration array to the new capacity. -/
def aeResizeSetSize (loop : aeEventLoop) (setsize : Nat) : aeEventLoop × Int :=
  if setsize == loop.setsize then (loop, AE_OK)
  else if (setsize : Int) ≤ loop.maxfd then (loop, AE_ERR)
  else
    ({ loop with
        setsize := setsize
        events := loop.events.take setsize ++
          List.replicate (setsize - loop.events.length) default }, AE_OK)

/-! ## Time events

The aeTimeEvent structure of ae.h: `(id, when_sec, when_ms, timeProc,
finalizerProc, clientData, prev, next, refcount)`.  The doubly linked list
is modelled as a Lean list in link order; procedure pointers are opaque
numeric identifiers and the optional finalizer is an Option. -/

/-- The aeTimeEvent structure of ae.h (prev/next links are carried by the
surrounding list). -/
structure aeTimeEvent where
  id : Int
  when_sec : Nat
  when_ms : Nat
  timeProc : Nat
  finalizerProc : Option Nat
  clientData : Nat
  refcount : Nat
deriving Repr, DecidableEq

/-- Modelled from the spec: delete_timer(id), the body of aeDeleteTimeEvent
(not part of this excerpt).  Walks the timer list; on the first timer whose
id matches it sets the id to AE_DELETED_EVENT_ID and returns AE_OK, freeing
nothing; if no timer matches it returns AE_ERR. -/
def aeDeleteTimeEvent : List aeTimeEvent → Int → List aeTimeEvent × Int
  | [], _ => ([], AE_ERR)
  | te :: rest, tid =>
    if te.id == tid then ({ te with id := AE_DELETED_EVENT_ID } :: rest, AE_OK)
    else
      let r := aeDeleteTimeEvent rest tid
      (te :: r.1, r.2)

/-- Whether the timer dispatch phase releases this timer: it is logically
deleted (id = AE_DELETED_EVENT_ID) and no callback currently holds it
(refcount = 0). -/
def timerFreeable (te : aeTimeEvent) : Bool :=
  te.id == AE_DELETED_EVENT_ID && te.refcount == 0

/-- Modelled from the spec: the release phase of timer dispatch inside
processTimeEvents (not part of this excerpt).  Unlinks and frees every timer
whose id is AE_DELETED_EVENT_ID and whose refcount is zero, invoking its
finalizer if present; all other timers stay linked.  Returns the remaining
list together with the finalizer procedures that ran, in list order. -/
def freeDeletedTimers : List aeTimeEvent → List aeTimeEvent × List Nat
  | [] => ([], [])
  | te :: rest =>
    let r := freeDeletedTimers rest
    if timerFreeable te then
      (r.1, (match te.finalizerProc with
             | some f => [f]
             | none => []) ++ r.2)
    else (te :: r.1, r.2)

/-- Modelled from the spec: the protection discipline around one timer
callback inside processTimeEvents (not part of this excerpt).  The timer at
the focused position has its refcount incremented before its procedure runs;
the procedure may call delete_timer on arbitrary ids (its own included) and
a nested dispatch may run the release phase; only afterwards is the
refcount decremented again.  The deletions requested by the callback and the
nested release phase are what this function applies. -/
def dispatchDuringCallback (pre : List aeTimeEvent) (te : aeTimeEvent)
    (post : List aeTimeEvent) (toDelete : List Int) :
    List aeTimeEvent × List Nat :=
  let l1 := pre ++ ({ te with refcount := te.refcount + 1 } :: post)
  let l2 := toDelete.foldl (fun acc i => (aeDeleteTimeEvent acc i).1) l1
  freeDeletedTimers l2

end Ae

namespace Dict

/-! ## Public constants of `dict.h` -/

/-- `#define DICT_OK 0` -/
def DICT_OK : Int := 0

/-- `#define DICT_ERR 1` -/
def DICT_ERR : Int := 1

/-- Macro DICT_HT_INITIAL_SIZE of dict.h, defined as 4. -/
def DICT_HT_INITIAL_SIZE : Nat := 4

/-! ## Data structures of dict.h

Keys, values, private data and function pointers are opaque machine words,
modelled as Nat.  The optional members of the type vtable are Options; the
destructors are kept as opaque pointers because the model records destructor
invocations as observable effects rather than running them. -/

/-- The dictEntry structure of dict.h: a key and the pointer member of the
value union (the chain link is carried by the surrounding list). -/
structure dictEntry where
  key : Nat
  val : Nat
deriving Repr, DecidableEq

/-- The dictType structure of dict.h: the vtable of caller-supplied
capabilities.  A None member is a NULL function pointer. -/
structure dictType where
  hashFunction : Nat → Nat
  keyDup : Option (Nat → Nat → Nat)
  valDup : Option (Nat → Nat → Nat)
  keyCompare : Option (Nat → Nat → Nat → Bool)
  keyDestructor : Option Nat
  valDestructor : Option Nat

/-- The dictht structure of dict.h: bucket array, size, sizemask and live
entry count.  Buckets are chains in link order. -/
structure dictht where
  table : List (List dictEntry)
  size : Nat
  sizemask : Nat
  used : Nat
deriving Repr, DecidableEq

/-- The dict structure of dict.h: vtable, private data, the two hash tables,
the rehash index and the count of running safe iterators. -/
structure dict where
  type : dictType
  privdata : Nat
  ht0 : dictht
  ht1 : dictht
  rehashidx : Int
  iterators : Nat

/-! ## Macros of dict.h -/

/-- Macro dictFreeVal of dict.h: invokes the value destructor on the stored
value unless the destructor pointer is NULL.  The model returns the list of
destructor invocations performed, each recorded as (function pointer,
privdata, value); an empty list is a no-op. -/
def dictFreeVal (d : dict) (entry : dictEntry) : List (Nat × Nat × Nat) :=
  match d.type.valDestructor with
  | some f => [(f, d.privdata, entry.val)]
  | none => []

/-- Macro dictSetVal of dict.h: stores valDup(privdata, v) if the duplicator
is non-NULL, otherwise stores the value verbatim. -/
def dictSetVal (d : dict) (entry : dictEntry) (v : Nat) : dictEntry :=
  { entry with
    val := match d.type.valDup with
           | some dup => dup d.privdata v
           | none => v }

/-- Macro dictFreeKey of dict.h: invokes the key destructor on the stored
key unless the destructor pointer is NULL; same effect encoding as
dictFreeVal. -/
def dictFreeKey (d : dict) (entry : dictEntry) : List (Nat × Nat × Nat) :=
  match d.type.keyDestructor with
  | some f => [(f, d.privdata, entry.key)]
  | none => []

/-- Macro dictSetKey of dict.h: stores keyDup(privdata, k) if the duplicator
is non-NULL, otherwise stores the key verbatim. -/
def dictSetKey (d : dict) (entry : dictEntry) (k : Nat) : dictEntry :=
  { entry with
    key := match d.type.keyDup with
           | some dup => dup d.privdata k
           | none => k }

/-- Macro dictCompareKeys of dict.h: applies the vtable comparator if
non-NULL, otherwise compares the two key words for equality. -/
def dictCompareKeys (d : dict) (key1 key2 : Nat) : Bool :=
  match d.type.keyCompare with
  | some cmp => cmp d.privdata key1 key2
  | none => key1 == key2

/-- Macro dictHashKey of dict.h. -/
def dictHashKey (d : dict) (key : Nat) : Nat :=
  d.type.hashFunction key

/-- Macro dictSlots of dict.h. -/
def dictSlots (d : dict) : Nat :=
  d.ht0.size + d.ht1.size

/-- Macro dictSize of dict.h. -/
def dictSize (d : dict) : Nat :=
  d.ht0.used + d.ht1.used

/-- Macro dictIsRehashing of dict.h. -/
def dictIsRehashing (d : dict) : Bool :=
  d.rehashidx != -1

/-! ## Operations

The bodies below are modelled from the spec (dict.c is not part of this
excerpt): creation, expansion, incremental rehashing, add and delete, plus
the unsafe iterator fingerprint. -/

/-- The bucket chain at index i, the empty chain when out of range (a NULL
table slot). -/
def bucketAt (h : dictht) (i : Nat) : List dictEntry :=
  h.table.getD i []

/-- Entries of one hash table in bucket-then-chain order. -/
def htEntries (h : dictht) : List dictEntry :=
  h.table.join

/-- A reset hash table (the _dictReset of dict.c, as the spec describes the
empty state): no buckets, size 0, sizemask 0, no entries. -/
def resetHt : dictht :=
  { table := [], size := 0, sizemask := 0, used := 0 }

/-- A freshly allocated table of the given size: all buckets empty, sizemask
equal to size - 1, no entries. -/
def newHt (realsize : Nat) : dictht :=
  { table := List.replicate realsize []
    size := realsize
    sizemask := realsize - 1
    used := 0 }

/-- Modelled from the spec: create(type_vtable, private_data) returns an
empty dictionary whose ht[0] starts empty (buckets lazily allocated at first
insert) and which is not rehashing. -/
def dictCreate (t : dictType) (privDataPtr : Nat) : dict :=
  { type := t
    privdata := privDataPtr
    ht0 := resetHt
    ht1 := resetHt
    rehashidx := -1
    iterators := 0 }

/-- Doubling loop computing the next power of two, starting from
DICT_HT_INITIAL_SIZE; the fuel argument only bounds the recursion and is
chosen large enough never to run out. -/
def nextPowerLoop : Nat → Nat → Nat → Nat
  | 0, i, _ => i
  | fuel + 1, i, size => if size ≤ i then i else nextPowerLoop fuel (2 * i) size

/-- Modelled from the spec: the new size of a table is the next power of two
greater than or equal to the request, never below DICT_HT_INITIAL_SIZE. -/
def dictNextPower (size : Nat) : Nat :=
  nextPowerLoop size DICT_HT_INITIAL_SIZE size

/-- Modelled from the spec: expand(n), the body of dictExpand.  Refused
while rehashing or when the request is below the live entry count.  The very
first allocation installs the new table as ht[0] without rehashing;
otherwise the new table becomes ht[1] and rehash_index is set to 0. -/
def dictExpand (d : dict) (size : Nat) : dict × Int :=
  if dictIsRehashing d || decide (size < d.ht0.used) then (d, DICT_ERR)
  else
    let realsize := dictNextPower size
    if realsize == d.ht0.size then (d, DICT_ERR)
    else if d.ht0.size == 0 then ({ d with ht0 := newHt realsize }, DICT_OK)
    else ({ d with ht1 := newHt realsize, rehashidx := 0 }, DICT_OK)

/-- Modelled from the spec: the growth trigger checked on each insert.  No
work while rehashing; the first insert allocates ht[0] at
DICT_HT_INITIAL_SIZE; growth to the next power of two at least used + 1
happens when used reaches size and resizing is enabled, or unconditionally
when used reaches 5 times size. -/
def dictExpandIfNeeded (canResize : Bool) (d : dict) : dict × Int :=
  if dictIsRehashing d then (d, DICT_OK)
  else if d.ht0.size == 0 then dictExpand d DICT_HT_INITIAL_SIZE
  else if d.ht0.size ≤ d.ht0.used && (canResize || decide (5 * d.ht0.size ≤ d.ht0.used)) then
    dictExpand d (d.ht0.used + 1)
  else (d, DICT_OK)

/-- Inserts an entry at the head of bucket i (a no-op when i is out of
range, which cannot happen for a well-formed table). -/
def insertHead (i : Nat) (e : dictEntry) (t : List (List dictEntry)) :
    List (List dictEntry) :=
  t.set i (e :: t.getD i [])

/-- Moves a chain of entries into a target bucket array, rehashing each key
with the target sizemask; entries are taken in chain order and pushed at
the head of their destination bucket. -/
def migrateEntries (hash : Nat → Nat) (mask : Nat) :
    List dictEntry → List (List dictEntry) → List (List dictEntry)
  | [], t => t
  | e :: rest, t => migrateEntries hash mask rest (insertHead (hash e.key &&& mask) e t)

/-- Migrates the whole bucket at rehash_index from ht[0] to ht[1] and
advances rehash_index past it. -/
def migrateBucket (d : dict) : dict :=
  let idx := d.rehashidx.toNat
  let chain := bucketAt d.ht0 idx
  { d with
    ht0 := { d.ht0 with
              table := d.ht0.table.set idx []
              used := d.ht0.used - chain.length }
    ht1 := { d.ht1 with
              table := migrateEntries (d.type.hashFunction) d.ht1.sizemask chain d.ht1.table
              used := d.ht1.used + chain.length }
    rehashidx := d.rehashidx + 1 }

/-- The empty-bucket skip loop of a rehash step: advances rehash_index past
NULL buckets, spending one unit of empty-visit budget per skip; returns none
when the budget is exhausted (the step gives up and reports more work). -/
def skipEmptyBuckets : Nat → dict → Option (dict × Nat)
  | 0, d =>
    if (bucketAt d.ht0 d.rehashidx.toNat).isEmpty then none else some (d, 0)
  | ev2 + 1, d =>
    if (bucketAt d.ht0 d.rehashidx.toNat).isEmpty then
      if ev2 == 0 then none
      else skipEmptyBuckets ev2 { d with rehashidx := d.rehashidx + 1 }
    else some (d, ev2 + 1)

/-- Completion check of a rehash call: once ht[0] holds no more entries,
ht[1] becomes ht[0], ht[1] is reset and rehash_index returns to -1, reporting
no more work (0); otherwise more work remains (1). -/
def rehashFinish (d : dict) : dict × Int :=
  if d.ht0.used == 0 then
    ({ d with ht0 := d.ht1, ht1 := resetHt, rehashidx := -1 }, 0)
  else (d, 1)

/-- The main loop of a rehash call: up to n bucket migrations, sharing one
empty-visit budget, stopping early once ht[0] is drained. -/
def rehashLoop : Nat → Nat → dict → dict × Int
  | 0, _, d => rehashFinish d
  | n + 1, ev, d =>
    if d.ht0.used == 0 then rehashFinish d
    else
      match skipEmptyBuckets ev d with
      | none => (d, 1)
      | some (d2, ev2) => rehashLoop n ev2 (migrateBucket d2)

/-- Modelled from the spec: rehash(n), the body of dictRehash.  Migrates up
to n non-empty buckets from ht[0] to ht[1], skipping empty buckets within a
budget of 10 n empty visits; returns 1 while work remains and 0 once the
tables have been swapped back to the not-rehashing state. -/
def dictRehash (d : dict) (n : Nat) : dict × Int :=
  if !dictIsRehashing d then (d, 0)
  else rehashLoop n (n * 10) d

/-- Modelled from the spec: the single incremental rehash step performed by
mutating operations and lookups, skipped while any safe iterator is
running. -/
def dictRehashStep (d : dict) : dict :=
  if d.iterators == 0 then (dictRehash d 1).1 else d

/-- Chain lookup with the vtable comparator (the inner loop of
_dictKeyIndex and dictFind). -/
def chainFind (d : dict) (key : Nat) (chain : List dictEntry) : Option dictEntry :=
  chain.find? (fun he => dictCompareKeys d key he.key)

/-- Modelled from the spec: the index search of _dictKeyIndex.  Searches the
bucket of ht[0] for the key; when rehashing also searches ht[1].  Yields the
existing entry if the key is present, otherwise the target bucket index in
the table inserts go to (ht[1] while rehashing, else ht[0]). -/
def dictKeyIndexSearch (d : dict) (key hash : Nat) : Except dictEntry Nat :=
  let idx0 := hash &&& d.ht0.sizemask
  match chainFind d key (bucketAt d.ht0 idx0) with
  | some he => Except.error he
  | none =>
    if !dictIsRehashing d then Except.ok idx0
    else
      let idx1 := hash &&& d.ht1.sizemask
      match chainFind d key (bucketAt d.ht1 idx1) with
      | some he => Except.error he
      | none => Except.ok idx1

/-- Modelled from the spec: add_raw(key), the body of dictAddRaw.  Performs
one incremental rehash step when rehashing, then the growth check, then the
index search; a present key is a duplicate (the existing entry is reported
and nothing changes further).  Otherwise a fresh entry with the key
installed per dictSetKey is linked at the head of the target bucket and the
table's used count grows by one.  The middle component locates the new
entry (the C entry pointer): the target table (false for ht[0], true for
ht[1]) and bucket index; the new entry is the head of that bucket. -/
def dictAddRaw (canResize : Bool) (d : dict) (key : Nat) :
    dict × Option (Bool × Nat) × Option dictEntry :=
  let d1 := if dictIsRehashing d then dictRehashStep d else d
  let d2 := (dictExpandIfNeeded canResize d1).1
  match dictKeyIndexSearch d2 key (dictHashKey d2 key) with
  | Except.error existing => (d2, none, some existing)
  | Except.ok idx =>
    let entry := dictSetKey d2 { key := 0, val := 0 } key
    if dictIsRehashing d2 then
      ({ d2 with
          ht1 := { d2.ht1 with
                    table := insertHead idx entry d2.ht1.table
                    used := d2.ht1.used + 1 } },
       some (true, idx), none)
    else
      ({ d2 with
          ht0 := { d2.ht0 with
                    table := insertHead idx entry d2.ht0.table
                    used := d2.ht0.used + 1 } },
       some (false, idx), none)

/-- Replaces the head entry of the addressed bucket (how dictAdd writes the
value through the entry pointer dictAddRaw returned). -/
def updateEntryAt (d : dict) (loc : Bool × Nat) (f : dictEntry → dictEntry) : dict :=
  match loc with
  | (false, idx) =>
    { d with
      ht0 := { d.ht0 with
                table := d.ht0.table.set idx
                  (match bucketAt d.ht0 idx with
                   | [] => []
                   | e :: rest => f e :: rest) } }
  | (true, idx) =>
    { d with
      ht1 := { d.ht1 with
                table := d.ht1.table.set idx
                  (match bucketAt d.ht1 idx with
                   | [] => []
                   | e :: rest => f e :: rest) } }

/-- Modelled from the spec: add(key, value), the body of dictAdd.  DICT_ERR
on a duplicate key; otherwise the raw insert followed by dictSetVal on the
fresh entry, returning DICT_OK. -/
def dictAdd (canResize : Bool) (d : dict) (key val : Nat) : dict × Int :=
  match dictAddRaw canResize d key with
  | (d2, none, _) => (d2, DICT_ERR)
  | (d2, some loc, _) => (updateEntryAt d2 loc (fun e => dictSetVal d2 e val), DICT_OK)

/-- Removes the first entry of a chain matching the key; yields the removed
entry and the remaining chain. -/
def removeFromChain (d : dict) (key : Nat) :
    List dictEntry → Option dictEntry × List dictEntry
  | [] => (none, [])
  | he :: rest =>
    if dictCompareKeys d key he.key then (some he, rest)
    else
      let r := removeFromChain d key rest
      (r.1, he :: r.2)

/-- Modelled from the spec: the body of dictGenericDelete.  Nothing to do on
an empty dictionary; otherwise one incremental rehash step when rehashing,
then the key is unlinked from its chain in ht[0] or, while rehashing, ht[1],
decrementing that table's used count. -/
def dictGenericDelete (d : dict) (key : Nat) : dict × Option dictEntry :=
  if d.ht0.used + d.ht1.used == 0 then (d, none)
  else
    let d1 := if dictIsRehashing d then dictRehashStep d else d
    let h := dictHashKey d1 key
    let idx0 := h &&& d1.ht0.sizemask
    match removeFromChain d1 key (bucketAt d1.ht0 idx0) with
    | (some he, chain2) =>
      ({ d1 with
          ht0 := { d1.ht0 with
                    table := d1.ht0.table.set idx0 chain2
                    used := d1.ht0.used - 1 } }, some he)
    | (none, _) =>
      if !dictIsRehashing d1 then (d1, none)
      else
        let idx1 := h &&& d1.ht1.sizemask
        match removeFromChain d1 key (bucketAt d1.ht1 idx1) with
        | (some he, chain2) =>
          ({ d1 with
              ht1 := { d1.ht1 with
                        table := d1.ht1.table.set idx1 chain2
                        used := d1.ht1.used - 1 } }, some he)
        | (none, _) => (d1, none)

/-- Modelled from the spec: delete(key), the body of dictDelete: DICT_OK
when the key was found and unlinked, DICT_ERR otherwise. -/
def dictDelete (d : dict) (key : Nat) : dict × Int :=
  match dictGenericDelete d key with
  | (d2, some _) => (d2, DICT_OK)
  | (d2, none) => (d2, DICT_ERR)

/-! ## Unsafe iterator fingerprint -/

/-- The payload of one entry as a pair of words, for fingerprinting. -/
def entryCode (e : dictEntry) : Nat × Nat :=
  (e.key, e.val)

/-- One table's contribution to the fingerprint input: its bucket array
contents standing in for the table pointer, plus size and used. -/
def htFingerprintInput (h : dictht) : List (List (Nat × Nat)) × Nat × Nat :=
  (h.table.map (List.map entryCode), h.size, h.used)

/-- Modelled from the spec: dictFingerprint (not part of this excerpt)
hashes the tuple (ht[0].table, ht[0].size, ht[0].used, ht[1].table,
ht[1].size, ht[1].used); the spec notes any injective-over-small-state
function suffices, so the model uses an injective encoding of that tuple
into Nat. -/
def dictFingerprint (d : dict) : Nat :=
  Encodable.encode (htFingerprintInput d.ht0, htFingerprintInput d.ht1)

/-- The dictIterator structure of dict.h, restricted to the fields the
fingerprint discipline uses; the dict pointer is passed explicitly where
the C code dereferences it. -/
structure dictIterator where
  index : Int
  table : Nat
  safe : Bool
  fingerprint : Nat
deriving Repr, DecidableEq

/-- Modelled from the spec: dictGetIterator returns an unsafe iterator
recording the dictionary fingerprint at creation. -/
def dictGetIterator (d : dict) : dictIterator :=
  { index := -1, table := 0, safe := false, fingerprint := dictFingerprint d }

/-- Modelled from the spec: the misuse check dictReleaseIterator performs on
an unsafe iterator: the fingerprint recomputed over the dictionary in its
state at release must equal the recorded one. -/
def dictReleaseIteratorCheck (it : dictIterator) (d : dict) : Bool :=
  dictFingerprint d == it.fingerprint

/-! ## Operation traces -/

/-- One dictionary operation of a trace. -/
inductive DictOp where
  | add (canResize : Bool) (key val : Nat)
  | del (key : Nat)
  | expand (n : Nat)
  | rehash (n : Nat)
deriving Repr, DecidableEq

/-- Applies one operation, returning the new state and the status code
(dictRehash's more-work flag standing in for a status). -/
def applyOp (d : dict) : DictOp → dict × Int
  | DictOp.add c k v => dictAdd c d k v
  | DictOp.del k => dictDelete d k
  | DictOp.expand n => dictExpand d n
  | DictOp.rehash n => dictRehash d n

/-- Runs a trace of operations left to right. -/
def runOps (d : dict) : List DictOp → dict
  | [] => d
  | op :: rest => runOps (applyOp d op).1 rest

/-- Counts the successful adds of a trace run from d. -/
def countOkAdds (d : dict) : List DictOp → Nat
  | [] => 0
  | op :: rest =>
    (match op with
     | DictOp.add _ _ _ => if (applyOp d op).2 == DICT_OK then 1 else 0
     | _ => 0) + countOkAdds (applyOp d op).1 rest

/-- Counts the successful deletes of a trace run from d. -/
def countOkDels (d : dict) : List DictOp → Nat
  | [] => 0
  | op :: rest =>
    (match op with
     | DictOp.del _ => if (applyOp d op).2 == DICT_OK then 1 else 0
     | _ => 0) + countOkDels (applyOp d op).1 rest

/-- The states reachable from a fresh dictionary through the modelled
operations. -/
inductive Reachable : dict → Prop where
  | create (t : dictType) (priv : Nat) : Reachable (dictCreate t priv)
  | add {d : dict} (canResize : Bool) (key val : Nat) :
      Reachable d → Reachable (dictAdd canResize d key val).1
  | del {d : dict} (key : Nat) :
      Reachable d → Reachable (dictDelete d key).1
  | expand {d : dict} (n : Nat) :
      Reachable d → Reachable (dictExpand d n).1
  | rehash {d : dict} (n : Nat) :
      Reachable d → Reachable (dictRehash d n).1

/-- The structural well-formedness invariant of a dictionary state.  It
packages what the claims need: table lengths match sizes, sizes are zero or
powers of two, sizemasks are size - 1 (0, as dict.c resets them, for an
empty table, which Nat truncated subtraction also gives), used counts equal
entry counts, ht[1] is absent outside rehashing, the rehash index is -1 or a
valid progress mark, rehashed-past buckets of ht[0] are empty, and ht[1] is
allocated while rehashing. -/
structure WF (d : dict) : Prop where
  ht0_len : d.ht0.table.length = d.ht0.size
  ht1_len : d.ht1.table.length = d.ht1.size
  ht0_pow : d.ht0.size = 0 ∨ ∃ k, d.ht0.size = 2 ^ k
  ht1_pow : d.ht1.size = 0 ∨ ∃ k, d.ht1.size = 2 ^ k
  ht0_mask : d.ht0.sizemask = d.ht0.size - 1
  ht1_mask : d.ht1.sizemask = d.ht1.size - 1
  ht0_used : d.ht0.used = (htEntries d.ht0).length
  ht1_used : d.ht1.used = (htEntries d.ht1).length
  idle_ht1 : d.rehashidx = -1 → d.ht1.size = 0 ∧ d.ht1.table = []
  idx_nonneg : d.rehashidx ≠ -1 → 0 ≤ d.rehashidx
  low_empty : ∀ i : Nat, (i : Int) < d.rehashidx → bucketAt d.ht0 i = []
  rehash_ht1 : d.rehashidx ≠ -1 → 0 < d.ht1.size

/-- An example vtable with every optional capability absent and the identity
hash, for concrete instantiations. -/
def natType : dictType :=
  { hashFunction := fun k => k
    keyDup := none
    valDup := none
    keyCompare := none
    keyDestructor := none
    valDestructor := none }

end Dict

namespace Ae

/-- An example event loop of capacity 2 with nothing registered, for
concrete instantiations. -/
def loopEx : aeEventLoop :=
  { maxfd := -1, setsize := 2, events := [default, default] }

end Ae

/-! # Theorems -/

/-- C1: the public constants are bit-exact as listed: the reactor masks
NONE=0, READABLE=1, WRITABLE=2, BARRIER=4; the process_events flag set
FILE_EVENTS=1, TIME_EVENTS=2, DONT_WAIT=4, CALL_BEFORE_SLEEP=8,
CALL_AFTER_SLEEP=16; the sentinels NOMORE=-1 and DELETED_EVENT_ID=-1; the
map status codes OK=0 and ERR=1; and the initial hash-table size is 4, a
power of two. -/
theorem claim_C1_public_constants :
    Ae.AE_NONE = 0 ∧ Ae.AE_READABLE = 1 ∧ Ae.AE_WRITABLE = 2 ∧
    Ae.AE_BARRIER = 4 ∧ Ae.AE_FILE_EVENTS = 1 ∧ Ae.AE_TIME_EVENTS = 2 ∧
    Ae.AE_DONT_WAIT = 4 ∧ Ae.AE_CALL_BEFORE_SLEEP = 8 ∧
    Ae.AE_CALL_AFTER_SLEEP = 16 ∧ Ae.AE_NOMORE = -1 ∧
    Ae.AE_DELETED_EVENT_ID = -1 ∧ Dict.DICT_OK = 0 ∧ Dict.DICT_ERR = 1 ∧
    Dict.DICT_HT_INITIAL_SIZE = 4 ∧ Dict.DICT_HT_INITIAL_SIZE = 2 ^ 2 := by
  refine ⟨rfl, rfl, rfl, rfl, rfl, rfl, rfl, rfl, rfl, rfl, rfl, rfl, rfl, rfl, rfl⟩

/-- C5: with every optional vtable capability NULL the map degrades to
identity semantics: the key and value are stored verbatim by the set-key and
set-value macros, key comparison is pointer equality, and freeing a key or a
value performs no destructor call. -/
theorem claim_C5_null_vtable_identity (d : Dict.dict) (e : Dict.dictEntry)
    (k v a b : Nat)
    (hkd : d.type.keyDup = none) (hvd : d.type.valDup = none)
    (hkc : d.type.keyCompare = none)
    (hkx : d.type.keyDestructor = none) (hvx : d.type.valDestructor = none) :
    (Dict.dictSetKey d e k).key = k ∧
    (Dict.dictSetVal d e v).val = v ∧
    (Dict.dictCompareKeys d a b = true ↔ a = b) ∧
    Dict.dictFreeKey d e = [] ∧
    Dict.dictFreeVal d e = [] := by
  refine ⟨?_, ?_, ?_, ?_, ?_⟩ <;>
    simp [Dict.dictSetKey, Dict.dictSetVal, Dict.dictCompareKeys,
      Dict.dictFreeKey, Dict.dictFreeVal, hkd, hvd, hkc, hkx, hvx]

/-- Witness for C5 at a concrete dictionary whose vtable has every optional
capability absent. -/
theorem claim_C5_witness :
    (Dict.dictSetKey (Dict.dictCreate Dict.natType 0) ⟨9, 9⟩ 7).key = 7 ∧
    (Dict.dictSetVal (Dict.dictCreate Dict.natType 0) ⟨9, 9⟩ 8).val = 8 ∧
    (Dict.dictCompareKeys (Dict.dictCreate Dict.natType 0) 3 5 = true ↔ 3 = 5) ∧
    Dict.dictFreeKey (Dict.dictCreate Dict.natType 0) ⟨9, 9⟩ = [] ∧
    Dict.dictFreeVal (Dict.dictCreate Dict.natType 0) ⟨9, 9⟩ = [] :=
  claim_C5_null_vtable_identity (Dict.dictCreate Dict.natType 0) ⟨9, 9⟩
    7 8 3 5 rfl rfl rfl rfl rfl

namespace Ae

/-- A mask-and-power intersection is nonzero exactly when the bit is set. -/
theorem land_pow_ne_iff (m i : Nat) : m &&& 2 ^ i ≠ 0 ↔ m.testBit i = true := by
  rw [Nat.and_two_pow]
  cases h : m.testBit i <;> simp [h]

/-- A bit set in two masks is set in their intersection. -/
theorem land3_ne (m r : Nat) (i : Nat) (hm : m &&& 2 ^ i ≠ 0)
    (hr : r &&& 2 ^ i ≠ 0) : m &&& r &&& 2 ^ i ≠ 0 := by
  rw [land_pow_ne_iff] at hm hr ⊢
  rw [Nat.testBit_land, hm, hr]
  rfl

end Ae

/-- C2: for a fired file event whose registration carries both READABLE and
WRITABLE, whose ready mask reports both directions, and whose read and write
procedures are distinct callbacks, dispatch invokes the read callback
strictly before the write callback when BARRIER is absent from the
registered mask, and the write callback strictly before the read callback
when BARRIER is present. -/
theorem claim_C2_barrier_order (fe : Ae.aeFileEvent) (readyMask : Nat)
    (hmr : fe.mask &&& Ae.AE_READABLE ≠ 0)
    (hmw : fe.mask &&& Ae.AE_WRITABLE ≠ 0)
    (hrr : readyMask &&& Ae.AE_READABLE ≠ 0)
    (hrw : readyMask &&& Ae.AE_WRITABLE ≠ 0)
    (hp : fe.rfileProc ≠ fe.wfileProc) :
    (fe.mask &&& Ae.AE_BARRIER = 0 →
      Ae.processFiredEvent fe readyMask = [Ae.Callback.read, Ae.Callback.write]) ∧
    (fe.mask &&& Ae.AE_BARRIER ≠ 0 →
      Ae.processFiredEvent fe readyMask = [Ae.Callback.write, Ae.Callback.read]) := by
  have er : Ae.AE_READABLE = 2 ^ 0 := by norm_num [Ae.AE_READABLE]
  have ew : Ae.AE_WRITABLE = 2 ^ 1 := by norm_num [Ae.AE_WRITABLE]
  have h1 : fe.mask &&& readyMask &&& Ae.AE_READABLE ≠ 0 := by
    rw [er] at hmr hrr ⊢
    exact Ae.land3_ne _ _ _ hmr hrr
  have h2 : fe.mask &&& readyMask &&& Ae.AE_WRITABLE ≠ 0 := by
    rw [ew] at hmw hrw ⊢
    exact Ae.land3_ne _ _ _ hmw hrw
  have hb1 : (fe.mask &&& readyMask &&& Ae.AE_READABLE != 0) = true := by
    simpa [bne_iff_ne] using h1
  have hb2 : (fe.mask &&& readyMask &&& Ae.AE_WRITABLE != 0) = true := by
    simpa [bne_iff_ne] using h2
  have hbp : (fe.wfileProc != fe.rfileProc) = true := by
    simpa [bne_iff_ne] using (Ne.symm hp)
  constructor
  · intro hbar
    have hb0 : (fe.mask &&& Ae.AE_BARRIER != 0) = false := by
      simp [hbar]
    simp only [Ae.processFiredEvent, hb0, hb1, hb2, hbp]
    simp
  · intro hbar
    have hb0 : (fe.mask &&& Ae.AE_BARRIER != 0) = true := by
      simpa [bne_iff_ne] using hbar
    simp only [Ae.processFiredEvent, hb0, hb1, hb2, hbp]
    simp

/-- Witness for C2: a registration with mask READABLE|WRITABLE dispatches
read then write, and one with READABLE|WRITABLE|BARRIER dispatches write
then read, both with both directions ready. -/
theorem claim_C2_witness :
    Ae.processFiredEvent ⟨3, 1, 2, 0⟩ 3 = [Ae.Callback.read, Ae.Callback.write] ∧
    Ae.processFiredEvent ⟨7, 1, 2, 0⟩ 3 = [Ae.Callback.write, Ae.Callback.read] :=
  ⟨(claim_C2_barrier_order ⟨3, 1, 2, 0⟩ 3 (by decide) (by decide) (by decide)
      (by decide) (by decide)).1 (by decide),
   (claim_C2_barrier_order ⟨7, 1, 2, 0⟩ 3 (by decide) (by decide) (by decide)
      (by decide) (by decide)).2 (by decide)⟩

/-- C8: registering a file event on an fd at or above setsize fails with
AE_ERR and leaves the loop untouched; on an fd below setsize it succeeds,
or-combines the mask into the existing registration, stores the callback for
each requested direction together with the client data, raises maxfd to the
fd if needed, and touches no other slot. -/
theorem claim_C8_register_file_event (loop : Ae.aeEventLoop)
    (fd mask proc cd : Nat) (hlen : loop.events.length = loop.setsize) :
    (loop.setsize ≤ fd →
      Ae.aeCreateFileEvent loop fd mask proc cd = (loop, Ae.AE_ERR)) ∧
    (fd < loop.setsize →
      (Ae.aeCreateFileEvent loop fd mask proc cd).2 = Ae.AE_OK ∧
      ((Ae.aeCreateFileEvent loop fd mask proc cd).1.events.getD fd default).mask
        = (loop.events.getD fd default).mask ||| mask ∧
      ((Ae.aeCreateFileEvent loop fd mask proc cd).1.events.getD fd default).rfileProc
        = (if mask &&& Ae.AE_READABLE != 0 then proc
           else (loop.events.getD fd default).rfileProc) ∧
      ((Ae.aeCreateFileEvent loop fd mask proc cd).1.events.getD fd default).wfileProc
        = (if mask &&& Ae.AE_WRITABLE != 0 then proc
           else (loop.events.getD fd default).wfileProc) ∧
      ((Ae.aeCreateFileEvent loop fd mask proc cd).1.events.getD fd default).clientData
        = cd ∧
      (Ae.aeCreateFileEvent loop fd mask proc cd).1.maxfd
        = max loop.maxfd (fd : Int) ∧
      (Ae.aeCreateFileEvent loop fd mask proc cd).1.setsize = loop.setsize ∧
      (∀ j : Nat, j ≠ fd →
        (Ae.aeCreateFileEvent loop fd mask proc cd).1.events.getD j default
          = loop.events.getD j default)) := by
  constructor
  · intro h
    simp [Ae.aeCreateFileEvent, h]
  · intro h
    have hc : ¬ loop.setsize ≤ fd := Nat.not_le.mpr h
    have hfd : fd < loop.events.length := by rw [hlen]; exact h
    refine ⟨?_, ?_, ?_, ?_, ?_, ?_, ?_, ?_⟩ <;>
      simp [Ae.aeCreateFileEvent, hc, hfd]
    intro j hj
    have hne : fd ≠ j := fun hc2 => hj (by rw [hc2])
    simp [hne]

/-- Witness for C8 at the example loop of capacity 2: fd 2 is refused, fd 1
is registered. -/
theorem claim_C8_witness :
    (2 ≤ Ae.loopEx.setsize → True) ∧
    Ae.aeCreateFileEvent Ae.loopEx 2 1 7 9 = (Ae.loopEx, Ae.AE_ERR) ∧
    (Ae.aeCreateFileEvent Ae.loopEx 1 1 7 9).2 = Ae.AE_OK ∧
    ((Ae.aeCreateFileEvent Ae.loopEx 1 1 7 9).1.events.getD 1 default).mask
      = (Ae.loopEx.events.getD 1 default).mask ||| 1 :=
  ⟨fun _ => trivial,
   (claim_C8_register_file_event Ae.loopEx 2 1 7 9 rfl).1 (by decide),
   ((claim_C8_register_file_event Ae.loopEx 1 1 7 9 rfl).2 (by decide)).1,
   ((claim_C8_register_file_event Ae.loopEx 1 1 7 9 rfl).2 (by decide)).2.1⟩

/-- C10: the reactor status codes are AE_OK = 0 and AE_ERR = -1; every
modelled reactor operation returning ok/err (register, resize_setsize,
delete_timer) signals failure with AE_ERR = -1, which differs from the map
code DICT_ERR = 1, so testing a reactor result against the map code
misclassifies the failure. -/
theorem claim_C10_reactor_status_codes :
    Ae.AE_OK = 0 ∧ Ae.AE_ERR = -1 ∧
    (∀ (loop : Ae.aeEventLoop) (fd mask proc cd : Nat),
      (Ae.aeCreateFileEvent loop fd mask proc cd).2 ≠ Ae.AE_OK →
      (Ae.aeCreateFileEvent loop fd mask proc cd).2 = Ae.AE_ERR) ∧
    (∀ (loop : Ae.aeEventLoop) (n : Nat),
      (Ae.aeResizeSetSize loop n).2 ≠ Ae.AE_OK →
      (Ae.aeResizeSetSize loop n).2 = Ae.AE_ERR) ∧
    (∀ (l : List Ae.aeTimeEvent) (tid : Int),
      (Ae.aeDeleteTimeEvent l tid).2 ≠ Ae.AE_OK →
      (Ae.aeDeleteTimeEvent l tid).2 = Ae.AE_ERR) ∧
    Ae.AE_ERR ≠ Dict.DICT_ERR := by
  refine ⟨rfl, rfl, ?_, ?_, ?_, by decide⟩
  · intro loop fd mask proc cd h
    by_cases hc : loop.setsize ≤ fd
    · simp [Ae.aeCreateFileEvent, hc]
    · exact absurd (by simp [Ae.aeCreateFileEvent, hc]) h
  · intro loop n h
    by_cases h1 : n == loop.setsize
    · exact absurd (by simp [Ae.aeResizeSetSize, h1]) h
    · by_cases h2 : (n : Int) ≤ loop.maxfd
      · simp [Ae.aeResizeSetSize, h1, h2]
      · exact absurd (by simp [Ae.aeResizeSetSize, h1, h2]) h
  · intro l tid h
    induction l with
    | nil => rfl
    | cons te rest ih =>
      by_cases hc : te.id == tid
      · exact absurd (by simp [Ae.aeDeleteTimeEvent, hc]) h
      · have : (Ae.aeDeleteTimeEvent (te :: rest) tid).2
            = (Ae.aeDeleteTimeEvent rest tid).2 := by
          simp [Ae.aeDeleteTimeEvent, hc]
        rw [this] at h ⊢
        exact ih h

/-- Witness for C10: concrete failing calls of each operation return -1. -/
theorem claim_C10_witness :
    (Ae.aeCreateFileEvent Ae.loopEx 5 1 0 0).2 = Ae.AE_ERR ∧
    (Ae.aeResizeSetSize { maxfd := 1, setsize := 3, events := [] } 1).2 = Ae.AE_ERR ∧
    (Ae.aeDeleteTimeEvent [] 5).2 = Ae.AE_ERR :=
  ⟨claim_C10_reactor_status_codes.2.2.1 Ae.loopEx 5 1 0 0 (by decide),
   claim_C10_reactor_status_codes.2.2.2.1 { maxfd := 1, setsize := 3, events := [] } 1 (by decide),
   claim_C10_reactor_status_codes.2.2.2.2.1 [] 5 (by decide)⟩

namespace Ae

/-- delete_timer never unlinks: the list keeps its length. -/
theorem aeDeleteTimeEvent_length (l : List aeTimeEvent) (tid : Int) :
    (aeDeleteTimeEvent l tid).1.length = l.length := by
  induction l with
  | nil => rfl
  | cons te rest ih =>
    by_cases h : te.id == tid <;> simp [aeDeleteTimeEvent, h, ih]

/-- delete_timer marks the first matching timer deleted in place. -/
theorem aeDeleteTimeEvent_mark (pre post : List aeTimeEvent)
    (te : aeTimeEvent) (tid : Int) (hpre : ∀ x ∈ pre, x.id ≠ tid)
    (hid : te.id = tid) :
    aeDeleteTimeEvent (pre ++ te :: post) tid
      = (pre ++ { te with id := AE_DELETED_EVENT_ID } :: post, AE_OK) := by
  induction pre with
  | nil =>
    simp [aeDeleteTimeEvent, hid]
  | cons x rest ih =>
    have hx : ¬ (x.id == tid) := by
      simpa using hpre x (List.mem_cons_self x rest)
    have ihr := ih (fun y hy => hpre y (List.mem_cons_of_mem x hy))
    simp [aeDeleteTimeEvent, hx, ihr]

/-- The release phase keeps exactly the non-freeable timers and emits the
finalizers of the freed ones. -/
theorem freeDeletedTimers_eq (l : List aeTimeEvent) :
    freeDeletedTimers l
      = (l.filter (fun x => !timerFreeable x),
         (l.filter timerFreeable).filterMap (fun x => x.finalizerProc)) := by
  induction l with
  | nil => rfl
  | cons te rest ih =>
    by_cases h : timerFreeable te
    · simp [freeDeletedTimers, h, ih, List.filterMap_cons]
      cases hf : te.finalizerProc <;> simp [hf]
    · simp [freeDeletedTimers, h, ih]

/-- Membership survives one delete_timer call, up to the id being set to
the deleted sentinel. -/
theorem mem_delete_or_marked (l : List aeTimeEvent) (tid : Int)
    (te : aeTimeEvent) (h : te ∈ l) :
    ∃ te2 ∈ (aeDeleteTimeEvent l tid).1,
      te2 = te ∨ te2 = { te with id := AE_DELETED_EVENT_ID } := by
  induction l with
  | nil => cases h
  | cons x rest ih =>
    rcases List.mem_cons.mp h with hx | hr
    · subst hx
      by_cases hc : te.id == tid
      · exact ⟨{ te with id := AE_DELETED_EVENT_ID },
          by simp [aeDeleteTimeEvent, hc], Or.inr rfl⟩
      · exact ⟨te, by simp [aeDeleteTimeEvent, hc], Or.inl rfl⟩
    · by_cases hc : x.id == tid
      · exact ⟨te, by simp [aeDeleteTimeEvent, hc, hr], Or.inl rfl⟩
      · obtain ⟨te2, hmem, hor⟩ := ih hr
        exact ⟨te2, by simp [aeDeleteTimeEvent, hc]; right; exact hmem, hor⟩

/-- Membership survives any sequence of delete_timer calls, up to the id
being set to the deleted sentinel. -/
theorem mem_foldl_deletes (dels : List Int) (l : List aeTimeEvent)
    (te : aeTimeEvent) (h : te ∈ l) :
    ∃ te2 ∈ dels.foldl (fun acc i => (aeDeleteTimeEvent acc i).1) l,
      te2 = te ∨ te2 = { te with id := AE_DELETED_EVENT_ID } := by
  induction dels generalizing l te with
  | nil => exact ⟨te, h, Or.inl rfl⟩
  | cons d rest ih =>
    obtain ⟨te2, hmem, hor⟩ := mem_delete_or_marked l d te h
    obtain ⟨te3, hmem3, hor3⟩ := ih (aeDeleteTimeEvent l d).1 te2 hmem
    refine ⟨te3, hmem3, ?_⟩
    rcases hor with h1 | h1 <;> rcases hor3 with h2 | h2 <;>
      simp [h1] at h2 ⊢ <;> simp [h2]

end Ae

/-- C7: delete_timer sets the located timer's id to -1 in place and frees
nothing (the list keeps its length whatever the refcounts); the release
phase of timer dispatch unlinks and frees exactly the timers whose id is -1
and whose refcount is zero, running their finalizers; and a timer whose
refcount was incremented around its own callback survives any deletions and
nested release phases performed during that callback, so no timer is freed
during its own callback. -/
theorem claim_C7_timer_deletion (pre post : List Ae.aeTimeEvent)
    (te : Ae.aeTimeEvent) (tid : Int) (dels : List Int) :
    (∀ l : List Ae.aeTimeEvent,
      (Ae.aeDeleteTimeEvent l tid).1.length = l.length) ∧
    ((∀ x ∈ pre, x.id ≠ tid) → te.id = tid →
      Ae.aeDeleteTimeEvent (pre ++ te :: post) tid
        = (pre ++ { te with id := Ae.AE_DELETED_EVENT_ID } :: post, Ae.AE_OK)) ∧
    (∀ l : List Ae.aeTimeEvent,
      Ae.freeDeletedTimers l
        = (l.filter (fun x => !Ae.timerFreeable x),
           (l.filter Ae.timerFreeable).filterMap (fun x => x.finalizerProc))) ∧
    (∃ te2 ∈ (Ae.dispatchDuringCallback pre te post dels).1,
      te2.timeProc = te.timeProc ∧ te2.clientData = te.clientData ∧
      te2.refcount = te.refcount + 1) := by
  refine ⟨fun l => Ae.aeDeleteTimeEvent_length l tid, Ae.aeDeleteTimeEvent_mark pre post te tid,
    Ae.freeDeletedTimers_eq, ?_⟩
  have hb : ({ te with refcount := te.refcount + 1 } : Ae.aeTimeEvent)
      ∈ pre ++ ({ te with refcount := te.refcount + 1 } : Ae.aeTimeEvent) :: post := by
    simp
  obtain ⟨te2, hmem, hor⟩ := Ae.mem_foldl_deletes dels _ _ hb
  have hrc : te2.refcount = te.refcount + 1 := by
    rcases hor with h | h <;> simp [h]
  have htp : te2.timeProc = te.timeProc := by
    rcases hor with h | h <;> simp [h]
  have hcd : te2.clientData = te.clientData := by
    rcases hor with h | h <;> simp [h]
  have hkeep : (Ae.timerFreeable te2) = false := by
    simp [Ae.timerFreeable, hrc]
  refine ⟨te2, ?_, htp, hcd, hrc⟩
  unfold Ae.dispatchDuringCallback
  rw [Ae.freeDeletedTimers_eq]
  simp only [List.mem_filter]
  exact ⟨hmem, by simp [hkeep]⟩

/-- Witness for C7: a two-timer list where timer id 5 (refcount 2, finalizer
9) is deleted in place, and the same timer survives a callback that deletes
it while protected by the incremented refcount. -/
theorem claim_C7_witness :
    Ae.aeDeleteTimeEvent
        ([] ++ (⟨5, 0, 0, 1, some 9, 0, 2⟩ : Ae.aeTimeEvent) :: [⟨7, 0, 0, 1, none, 0, 0⟩]) 5
      = ([] ++ ({ (⟨5, 0, 0, 1, some 9, 0, 2⟩ : Ae.aeTimeEvent) with
                    id := Ae.AE_DELETED_EVENT_ID } : Ae.aeTimeEvent)
            :: [⟨7, 0, 0, 1, none, 0, 0⟩], Ae.AE_OK) ∧
    (∃ te2 ∈ (Ae.dispatchDuringCallback [] (⟨5, 0, 0, 1, some 9, 0, 2⟩ : Ae.aeTimeEvent)
        [⟨7, 0, 0, 1, none, 0, 0⟩] [5]).1,
      te2.timeProc = 1 ∧ te2.clientData = 0 ∧ te2.refcount = 3) :=
  ⟨(claim_C7_timer_deletion [] [⟨7, 0, 0, 1, none, 0, 0⟩]
      ⟨5, 0, 0, 1, some 9, 0, 2⟩ 5 [5]).2.1 (by simp) rfl,
   (claim_C7_timer_deletion [] [⟨7, 0, 0, 1, none, 0, 0⟩]
      ⟨5, 0, 0, 1, some 9, 0, 2⟩ 5 [5]).2.2.2⟩

namespace Dict

/-- The entry list of a table is as long as the sum of its chain lengths. -/
theorem length_htEntries (h : dictht) :
    (htEntries h).length = (h.table.map List.length).sum :=
  List.length_join _

/-- Replacing one bucket trades its chain length for the new one in the
total entry count. -/
theorem sum_map_set (t : List (List dictEntry)) (i : Nat) (x : List dictEntry)
    (h : i < t.length) :
    ((t.set i x).map List.length).sum + (t.getD i []).length
      = (t.map List.length).sum + x.length := by
  induction t generalizing i with
  | nil => simp at h
  | cons a rest ih =>
    cases i with
    | zero => simp; omega
    | succ j =>
      have hj : j < rest.length := by simpa using h
      have := ih j hj
      simp only [List.set, List.map_cons, List.sum_cons, List.getD_cons_succ]
      omega

/-- A nonempty bucket lies inside the table. -/
theorem lt_length_of_bucket_ne (h : dictht) (i : Nat)
    (hne : bucketAt h i ≠ []) : i < h.table.length := by
  by_contra hge
  exact hne (by
    simp [bucketAt, List.getD, List.getElem?_eq_none (Nat.le_of_not_lt hge)])

/-- Joining empty chains yields no entries. -/
theorem join_replicate_nil (n : Nat) :
    (List.replicate n ([] : List dictEntry)).join = [] := by
  induction n with
  | zero => rfl
  | succ m ih => simpa [List.replicate_succ] using ih

/-- A fresh table holds no entries. -/
theorem htEntries_newHt (n : Nat) : htEntries (newHt n) = [] := by
  simpa [htEntries, newHt] using join_replicate_nil n

/-- The doubling loop yields a power of two at least its power-of-two
start. -/
theorem nextPowerLoop_pow (fuel : Nat) :
    ∀ (i size : Nat), (∃ k, i = 2 ^ k) →
      ∃ k, nextPowerLoop fuel i size = 2 ^ k ∧ i ≤ nextPowerLoop fuel i size := by
  induction fuel with
  | zero =>
    intro i size hi
    exact ⟨hi.choose, hi.choose_spec, Nat.le_refl i⟩
  | succ f ih =>
    intro i size hi
    simp only [nextPowerLoop]
    by_cases hc : size ≤ i
    · rw [if_pos hc]
      exact ⟨hi.choose, hi.choose_spec, Nat.le_refl i⟩
    · rw [if_neg hc]
      obtain ⟨k, hk⟩ := hi
      obtain ⟨k2, hk2, hle⟩ := ih (2 * i) size ⟨k + 1, by rw [hk]; ring⟩
      exact ⟨k2, hk2, Nat.le_trans (by omega) hle⟩

/-- dictNextPower returns a power of two no smaller than the initial
size 4. -/
theorem dictNextPower_pow (s : Nat) :
    (∃ k, dictNextPower s = 2 ^ k) ∧ 4 ≤ dictNextPower s := by
  obtain ⟨k, hk, hle⟩ := nextPowerLoop_pow s DICT_HT_INITIAL_SIZE s ⟨2, rfl⟩
  exact ⟨⟨k, hk⟩, hle⟩

/-- Creation establishes the invariant. -/
theorem WF_create (t : dictType) (p : Nat) : WF (dictCreate t p) := by
  refine ⟨rfl, rfl, Or.inl rfl, Or.inl rfl, rfl, rfl, rfl, rfl,
    fun _ => ⟨rfl, rfl⟩, fun h => absurd rfl h, ?_, fun h => absurd rfl h⟩
  intro i hi
  simp [dictCreate] at hi
  omega

end Dict

namespace Dict

/-- Not rehashing means the rehash index is the idle sentinel. -/
theorem rehashidx_idle (d : dict) (h : dictIsRehashing d = false) :
    d.rehashidx = -1 := by
  simpa [dictIsRehashing] using h

/-- Outside rehashing ht[1] holds no entries. -/
theorem used1_zero (d : dict) (w : WF d) (h : d.rehashidx = -1) :
    d.ht1.used = 0 := by
  rw [w.ht1_used, htEntries, (w.idle_ht1 h).2]
  rfl

/-- A size-0 ht[0] has no buckets and no entries. -/
theorem ht0_empty_of_size0 (d : dict) (w : WF d) (h : d.ht0.size = 0) :
    d.ht0.table = [] ∧ d.ht0.used = 0 := by
  have ht : d.ht0.table = [] := by
    have := w.ht0_len
    rw [h] at this
    exact List.length_eq_zero.mp this
  refine ⟨ht, ?_⟩
  rw [w.ht0_used, htEntries, ht]
  rfl

/-- dictExpand preserves the invariant and the live entry count. -/
theorem WF_expand (d : dict) (s : Nat) (w : WF d) :
    WF (dictExpand d s).1 ∧ dictSize (dictExpand d s).1 = dictSize d := by
  unfold dictExpand
  by_cases hc1 : (dictIsRehashing d || decide (s < d.ht0.used)) = true
  · simp only [hc1, if_true]
    exact ⟨w, trivial⟩
  · rw [Bool.not_eq_true] at hc1
    simp only [hc1, Bool.false_eq_true, if_false]
    have hor : dictIsRehashing d = false ∧ ¬ s < d.ht0.used := by
      simpa using hc1
    have hri : d.rehashidx = -1 := rehashidx_idle d hor.1
    obtain ⟨⟨k, hk⟩, h4⟩ := dictNextPower_pow s
    by_cases hc2 : (dictNextPower s == d.ht0.size) = true
    · simp only [hc2, if_true]
      exact ⟨w, trivial⟩
    · rw [Bool.not_eq_true] at hc2
      simp only [hc2, Bool.false_eq_true, if_false]
      by_cases hc3 : (d.ht0.size == 0) = true
      · have h0 : d.ht0.size = 0 := by simpa using hc3
        obtain ⟨ht, hu⟩ := ht0_empty_of_size0 d w h0
        simp only [hc3, if_true]
        constructor
        · refine ⟨?_, w.ht1_len, Or.inr ⟨k, hk⟩, w.ht1_pow, rfl, w.ht1_mask,
            ?_, w.ht1_used, w.idle_ht1, fun h => absurd hri h, ?_,
            fun h => absurd hri h⟩
          · simp [newHt]
          · rw [htEntries_newHt]
            rfl
          · intro i hi
            rw [hri] at hi
            omega
        · simp [dictSize, newHt, hu]
      · rw [Bool.not_eq_true] at hc3
        simp only [hc3, Bool.false_eq_true, if_false]
        have hu1 : d.ht1.used = 0 := used1_zero d w hri
        constructor
        · refine ⟨w.ht0_len, ?_, w.ht0_pow, Or.inr ⟨k, hk⟩, w.ht0_mask, rfl,
            w.ht0_used, ?_, ?_, fun _ => le_refl 0, ?_, ?_⟩
          · simp [newHt]
          · rw [htEntries_newHt]
            rfl
          · intro h
            simp at h
          · intro i hi
            simp at hi
            omega
          · intro _
            simp [newHt]
            omega
        · simp [dictSize, newHt, hu1]

end Dict

namespace Dict

/-- Rehashing holds exactly when the index is not the idle sentinel. -/
theorem rehashing_iff (d : dict) : dictIsRehashing d = true ↔ d.rehashidx ≠ -1 := by
  simp [dictIsRehashing]

/-- The empty-bucket skip loop only advances the rehash index over empty
buckets: the result differs from the input in the rehash index alone, stays
well formed, and stops on a nonempty bucket. -/
theorem skipEmptyBuckets_spec : ∀ (ev : Nat) (d : dict), WF d → 0 ≤ d.rehashidx →
    ∀ d2 ev2, skipEmptyBuckets ev d = some (d2, ev2) →
      (∃ r2 : Int, d2 = { d with rehashidx := r2 } ∧ d.rehashidx ≤ r2) ∧ WF d2 ∧
      0 ≤ d2.rehashidx ∧ bucketAt d2.ht0 d2.rehashidx.toNat ≠ [] := by
  intro ev
  induction ev with
  | zero =>
    intro d w h0 d2 ev2 hs
    unfold skipEmptyBuckets at hs
    by_cases hb : (bucketAt d.ht0 d.rehashidx.toNat).isEmpty
    · simp [hb] at hs
    · rw [if_neg hb] at hs
      injection hs with hs2
      injection hs2 with ha hb2
      subst ha
      exact ⟨⟨d.rehashidx, rfl, le_refl _⟩, w, h0,
        fun hc => (by simpa [hc] using hb)⟩
  | succ ev2 ih =>
    intro d w h0 d3 ev3 hs
    unfold skipEmptyBuckets at hs
    by_cases hb : (bucketAt d.ht0 d.rehashidx.toNat).isEmpty
    · rw [if_pos hb] at hs
      by_cases hz : (ev2 == 0) = true
      · rw [if_pos hz] at hs
        cases hs
      · rw [if_neg (by simpa using hz)] at hs
        have hwf2 : WF { d with rehashidx := d.rehashidx + 1 } := by
          refine ⟨w.ht0_len, w.ht1_len, w.ht0_pow, w.ht1_pow, w.ht0_mask,
            w.ht1_mask, w.ht0_used, w.ht1_used, ?_, ?_, ?_, ?_⟩
          · intro h
            simp at h
            omega
          · intro _
            simp
            omega
          · intro i hi
            simp at hi
            by_cases hlt : (i : Int) < d.rehashidx
            · exact w.low_empty i hlt
            · have hieq : (i : Int) = d.rehashidx := by omega
              have : i = d.rehashidx.toNat := by omega
              rw [this]
              exact List.isEmpty_iff.mp hb
          · intro _
            exact w.rehash_ht1 (by omega)
        obtain ⟨⟨r2, hshape, hle⟩, hwf3, h03, hne3⟩ :=
          ih { d with rehashidx := d.rehashidx + 1 } hwf2 (by simp; omega) d3 ev3 hs
        refine ⟨⟨r2, ?_, by simp at hle; omega⟩, hwf3, h03, hne3⟩
        rw [hshape]
    · rw [if_neg hb] at hs
      injection hs with hs2
      injection hs2 with ha hb2
      subst ha
      exact ⟨⟨d.rehashidx, rfl, le_refl _⟩, w, h0,
        fun hc => (by simpa [hc] using hb)⟩

end Dict

namespace Dict

/-- Migrating a chain into a well-shaped table preserves the bucket count
and grows the entry count by the chain length. -/
theorem migrateEntries_facts (hash : Nat → Nat) (mask : Nat) :
    ∀ (chain : List dictEntry) (t : List (List dictEntry)),
      mask = t.length - 1 → 0 < t.length →
      (migrateEntries hash mask chain t).length = t.length ∧
      ((migrateEntries hash mask chain t).map List.length).sum
        = (t.map List.length).sum + chain.length := by
  intro chain
  induction chain with
  | nil =>
    intro t _ _
    exact ⟨rfl, rfl⟩
  | cons e rest ih =>
    intro t hm hpos
    have hidx : hash e.key &&& mask < t.length := by
      have h1 : hash e.key &&& mask ≤ mask := Nat.and_le_right
      omega
    have hlen : (insertHead (hash e.key &&& mask) e t).length = t.length := by
      simp [insertHead]
    have hsum : ((insertHead (hash e.key &&& mask) e t).map List.length).sum
        = (t.map List.length).sum + 1 := by
      have := sum_map_set t (hash e.key &&& mask)
        (e :: t.getD (hash e.key &&& mask) []) hidx
      simp only [insertHead]
      simp only [List.length_cons] at this
      omega
    obtain ⟨ihl, ihs⟩ := ih (insertHead (hash e.key &&& mask) e t)
      (by rw [hlen]; exact hm) (by rw [hlen]; exact hpos)
    refine ⟨?_, ?_⟩
    · simpa [migrateEntries, hlen] using ihl
    · simp only [migrateEntries]
      rw [ihs, hsum, List.length_cons]
      omega

/-- Bucket read-back after writing the same slot. -/
theorem bucketGetD_set_self (t : List (List dictEntry)) (i : Nat)
    (x : List dictEntry) (hlt : i < t.length) : (t.set i x).getD i [] = x := by
  simp [List.getD, List.getElem?_set_self hlt]

/-- Bucket read-back after writing a different slot. -/
theorem bucketGetD_set_ne (t : List (List dictEntry)) (i j : Nat)
    (x : List dictEntry) (hne : i ≠ j) : (t.set i x).getD j [] = t.getD j [] := by
  simp [List.getD, List.getElem?_set_ne hne]

/-- Migrating the current bucket preserves the invariant and the live entry
count. -/
theorem WF_migrateBucket (d : dict) (w : WF d) (h0 : 0 ≤ d.rehashidx)
    (hne : bucketAt d.ht0 d.rehashidx.toNat ≠ []) :
    WF (migrateBucket d) ∧ dictSize (migrateBucket d) = dictSize d := by
  have hlt : d.rehashidx.toNat < d.ht0.table.length :=
    lt_length_of_bucket_ne d.ht0 d.rehashidx.toNat hne
  have hnr : d.rehashidx ≠ -1 := by omega
  have hpos1 : 0 < d.ht1.size := w.rehash_ht1 hnr
  have hlen1 : d.ht1.table.length = d.ht1.size := w.ht1_len
  have hmask1 : d.ht1.sizemask = d.ht1.table.length - 1 := by
    rw [hlen1]; exact w.ht1_mask
  obtain ⟨hml, hms⟩ := migrateEntries_facts d.type.hashFunction d.ht1.sizemask
    (bucketAt d.ht0 d.rehashidx.toNat) d.ht1.table hmask1 (by omega)
  have hset := sum_map_set d.ht0.table d.rehashidx.toNat [] hlt
  have hbe : d.ht0.table.getD d.rehashidx.toNat [] = bucketAt d.ht0 d.rehashidx.toNat := rfl
  rw [hbe] at hset
  simp only [List.length_nil, Nat.add_zero] at hset
  have hu0 := w.ht0_used
  rw [length_htEntries] at hu0
  have hu1 := w.ht1_used
  rw [length_htEntries] at hu1
  constructor
  · refine ⟨?_, ?_, w.ht0_pow, w.ht1_pow, w.ht0_mask, w.ht1_mask, ?_, ?_,
      ?_, ?_, ?_, ?_⟩
    · simpa [migrateBucket] using w.ht0_len
    · simp only [migrateBucket]
      rw [hml]
      exact w.ht1_len
    · simp only [migrateBucket, htEntries]
      rw [List.length_join]
      omega
    · simp only [migrateBucket, htEntries]
      rw [List.length_join]
      omega
    · intro h
      simp [migrateBucket] at h
      omega
    · intro _
      simp [migrateBucket]
      omega
    · intro i hi
      simp only [migrateBucket] at hi ⊢
      simp only [bucketAt]
      by_cases hieq : i = d.rehashidx.toNat
      · subst hieq
        exact bucketGetD_set_self d.ht0.table _ [] hlt
      · have hne2 : d.rehashidx.toNat ≠ i := fun hc => hieq hc.symm
        rw [bucketGetD_set_ne d.ht0.table _ i [] hne2]
        have hilt : (i : Int) < d.rehashidx := by omega
        exact w.low_empty i hilt
    · intro _
      simp only [migrateBucket]
      exact w.rehash_ht1 hnr
  · simp only [migrateBucket, dictSize]
    omega

end Dict

namespace Dict

/-- The completion check of a rehash call preserves the invariant and the
live entry count. -/
theorem WF_rehashFinish (d : dict) (w : WF d) :
    WF (rehashFinish d).1 ∧ dictSize (rehashFinish d).1 = dictSize d := by
  unfold rehashFinish
  by_cases hz : (d.ht0.used == 0) = true
  · have hu0 : d.ht0.used = 0 := by simpa using hz
    rw [if_pos hz]
    constructor
    · refine ⟨w.ht1_len, rfl, w.ht1_pow, Or.inl rfl, w.ht1_mask, rfl,
        w.ht1_used, rfl, fun _ => ⟨rfl, rfl⟩, fun h => absurd rfl h, ?_,
        fun h => absurd rfl h⟩
      intro i hi
      simp at hi
      omega
    · simp [dictSize, resetHt, hu0]
  · rw [if_neg hz]
    exact ⟨w, rfl⟩

/-- The migration loop of a rehash call preserves the invariant and the
live entry count. -/
theorem WF_rehashLoop : ∀ (n ev : Nat) (d : dict), WF d →
    dictIsRehashing d = true →
    WF (rehashLoop n ev d).1 ∧ dictSize (rehashLoop n ev d).1 = dictSize d := by
  intro n
  induction n with
  | zero =>
    intro ev d w _
    exact WF_rehashFinish d w
  | succ m ih =>
    intro ev d w hr
    unfold rehashLoop
    by_cases hz : (d.ht0.used == 0) = true
    · rw [if_pos hz]
      exact WF_rehashFinish d w
    · rw [if_neg hz]
      have h0 : 0 ≤ d.rehashidx := w.idx_nonneg ((rehashing_iff d).mp hr)
      cases hsk : skipEmptyBuckets ev d with
      | none => exact ⟨w, rfl⟩
      | some pr =>
        obtain ⟨⟨r2, hshape, hle⟩, w2, h02, hne2⟩ :=
          skipEmptyBuckets_spec ev d w h0 pr.1 pr.2 (by rw [hsk])
        obtain ⟨wm, hsm⟩ := WF_migrateBucket pr.1 w2 h02 hne2
        have hrm : dictIsRehashing (migrateBucket pr.1) = true := by
          rw [rehashing_iff]
          simp [migrateBucket]
          omega
        obtain ⟨wl, hsl⟩ := ih pr.2 (migrateBucket pr.1) wm hrm
        refine ⟨wl, ?_⟩
        rw [hsl, hsm]
        rw [hshape]
        simp [dictSize]

end Dict

namespace Dict

/-- dictRehash preserves the invariant and the live entry count. -/
theorem WF_dictRehash (d : dict) (n : Nat) (w : WF d) :
    WF (dictRehash d n).1 ∧ dictSize (dictRehash d n).1 = dictSize d := by
  unfold dictRehash
  by_cases hr : dictIsRehashing d = true
  · rw [if_neg (by simp [hr])]
    exact WF_rehashLoop n (n * 10) d w hr
  · rw [if_pos (by simpa using hr)]
    exact ⟨w, rfl⟩

/-- The single incremental rehash step preserves the invariant and the live
entry count. -/
theorem WF_dictRehashStep (d : dict) (w : WF d) :
    WF (dictRehashStep d) ∧ dictSize (dictRehashStep d) = dictSize d := by
  unfold dictRehashStep
  by_cases hi : (d.iterators == 0) = true
  · rw [if_pos hi]
    exact WF_dictRehash d 1 w
  · rw [if_neg hi]
    exact ⟨w, rfl⟩

/-- The growth trigger preserves the invariant and the live entry count. -/
theorem WF_expandIfNeeded (c : Bool) (d : dict) (w : WF d) :
    WF (dictExpandIfNeeded c d).1 ∧
    dictSize (dictExpandIfNeeded c d).1 = dictSize d := by
  unfold dictExpandIfNeeded
  by_cases h1 : dictIsRehashing d = true
  · rw [if_pos h1]
    exact ⟨w, rfl⟩
  · rw [if_neg h1]
    by_cases h2 : (d.ht0.size == 0) = true
    · rw [if_pos h2]
      exact WF_expand d DICT_HT_INITIAL_SIZE w
    · rw [if_neg h2]
      by_cases h3 : (d.ht0.size ≤ d.ht0.used &&
          (c || decide (5 * d.ht0.size ≤ d.ht0.used))) = true
      · rw [if_pos h3]
        exact WF_expand d (d.ht0.used + 1) w
      · rw [if_neg h3]
        exact ⟨w, rfl⟩

end Dict

namespace Dict

/-- Inserting a fresh entry at the head of a bucket of ht[1] while rehashing
preserves the invariant and adds one to the live entry count. -/
theorem WF_insert_ht1 (d : dict) (e : dictEntry) (idx : Nat) (w : WF d)
    (hr : dictIsRehashing d = true) (hidx : idx < d.ht1.size) :
    WF { d with ht1 := { d.ht1 with
          table := insertHead idx e d.ht1.table, used := d.ht1.used + 1 } } ∧
    dictSize { d with ht1 := { d.ht1 with
          table := insertHead idx e d.ht1.table, used := d.ht1.used + 1 } }
      = dictSize d + 1 := by
  have hnr : d.rehashidx ≠ -1 := (rehashing_iff d).mp hr
  have hlt : idx < d.ht1.table.length := by rw [w.ht1_len]; exact hidx
  have hset := sum_map_set d.ht1.table idx (e :: d.ht1.table.getD idx []) hlt
  have hu1 := w.ht1_used
  rw [length_htEntries] at hu1
  constructor
  · refine ⟨w.ht0_len, ?_, w.ht0_pow, w.ht1_pow, w.ht0_mask, w.ht1_mask,
      w.ht0_used, ?_, ?_, w.idx_nonneg, w.low_empty, ?_⟩
    · simpa [insertHead] using w.ht1_len
    · simp only [htEntries, insertHead]
      rw [List.length_join]
      simp only [List.length_cons] at hset
      omega
    · intro h
      exact absurd h hnr
    · intro _
      exact w.rehash_ht1 hnr
  · simp [dictSize]
    omega

/-- Inserting a fresh entry at the head of a bucket of ht[0] outside
rehashing preserves the invariant and adds one to the live entry count. -/
theorem WF_insert_ht0 (d : dict) (e : dictEntry) (idx : Nat) (w : WF d)
    (hnr : dictIsRehashing d = false) (hidx : idx < d.ht0.size) :
    WF { d with ht0 := { d.ht0 with
          table := insertHead idx e d.ht0.table, used := d.ht0.used + 1 } } ∧
    dictSize { d with ht0 := { d.ht0 with
          table := insertHead idx e d.ht0.table, used := d.ht0.used + 1 } }
      = dictSize d + 1 := by
  have hri : d.rehashidx = -1 := rehashidx_idle d hnr
  have hlt : idx < d.ht0.table.length := by rw [w.ht0_len]; exact hidx
  have hset := sum_map_set d.ht0.table idx (e :: d.ht0.table.getD idx []) hlt
  have hu0 := w.ht0_used
  rw [length_htEntries] at hu0
  constructor
  · refine ⟨?_, w.ht1_len, w.ht0_pow, w.ht1_pow, w.ht0_mask, w.ht1_mask,
      ?_, w.ht1_used, w.idle_ht1, w.idx_nonneg, ?_, w.rehash_ht1⟩
    · simpa [insertHead] using w.ht0_len
    · simp only [htEntries, insertHead]
      rw [List.length_join]
      simp only [List.length_cons] at hset
      omega
    · intro i hi
      simp only at hi
      rw [hri] at hi
      omega
  · simp [dictSize]
    omega

/-- The index search yields the bucket of the table inserts target. -/
theorem keyIndexSearch_ok (d : dict) (key hash : Nat) (idx : Nat)
    (h : dictKeyIndexSearch d key hash = Except.ok idx) :
    (dictIsRehashing d = false → idx = hash &&& d.ht0.sizemask) ∧
    (dictIsRehashing d = true → idx = hash &&& d.ht1.sizemask) := by
  unfold dictKeyIndexSearch at h
  dsimp only [] at h
  cases hc0 : chainFind d key (bucketAt d.ht0 (hash &&& d.ht0.sizemask)) with
  | some he => rw [hc0] at h; cases h
  | none =>
    rw [hc0] at h
    by_cases hr : dictIsRehashing d = true
    · rw [if_neg (by simp [hr])] at h
      cases hc1 : chainFind d key (bucketAt d.ht1 (hash &&& d.ht1.sizemask)) with
      | some he => rw [hc1] at h; cases h
      | none =>
        rw [hc1] at h
        injection h with h2
        exact ⟨fun hnr => absurd hr (by simp [hnr]), fun _ => h2.symm⟩
    · rw [if_pos (by simpa using hr)] at h
      injection h with h2
      refine ⟨fun _ => h2.symm, fun ht => absurd ht hr⟩

end Dict

namespace Dict

/-- When ht[0] is already allocated, a successful expansion leaves the
dictionary rehashing, so a non-rehashing result keeps ht[0] positive. -/
theorem expand_pos_of_size_ne (d : dict) (s : Nat) (h0 : d.ht0.size ≠ 0) :
    dictIsRehashing (dictExpand d s).1 = false →
    0 < (dictExpand d s).1.ht0.size := by
  unfold dictExpand
  by_cases hc1 : (dictIsRehashing d || decide (s < d.ht0.used)) = true
  · simp only [hc1, if_true]
    intro _
    omega
  · rw [Bool.not_eq_true] at hc1
    simp only [hc1, Bool.false_eq_true, if_false]
    by_cases hc2 : (dictNextPower s == d.ht0.size) = true
    · simp only [hc2, if_true]
      intro _
      omega
    · rw [Bool.not_eq_true] at hc2
      simp only [hc2, Bool.false_eq_true, if_false]
      by_cases hc3 : (d.ht0.size == 0) = true
      · exact absurd (by simpa using hc3) h0
      · rw [Bool.not_eq_true] at hc3
        simp only [hc3, Bool.false_eq_true, if_false]
        intro hf
        simp [dictIsRehashing] at hf

/-- The very first expansion installs the new table as ht[0] and does not
start a rehash. -/
theorem expand_install_ht0 (d : dict) (s : Nat) (w : WF d)
    (hnr : dictIsRehashing d = false) (h0 : d.ht0.size = 0) :
    (dictExpand d s).1.ht0.size = dictNextPower s ∧
    dictIsRehashing (dictExpand d s).1 = false := by
  unfold dictExpand
  have hu : d.ht0.used = 0 := (ht0_empty_of_size0 d w h0).2
  have hc1 : (dictIsRehashing d || decide (s < d.ht0.used)) = false := by
    simp [hnr, hu]
  simp only [hc1, Bool.false_eq_true, if_false]
  have h4 := (dictNextPower_pow s).2
  have hc2 : (dictNextPower s == d.ht0.size) = false := by
    simp [h0]
    omega
  simp only [hc2, Bool.false_eq_true, if_false]
  have hc3 : (d.ht0.size == 0) = true := by simp [h0]
  simp only [hc3, if_true]
  exact ⟨rfl, hnr⟩

/-- After the growth check, a non-rehashing dictionary has a usable ht[0]. -/
theorem expandIfNeeded_pos (c : Bool) (d : dict) (w : WF d) :
    dictIsRehashing (dictExpandIfNeeded c d).1 = false →
    0 < (dictExpandIfNeeded c d).1.ht0.size := by
  unfold dictExpandIfNeeded
  by_cases h1 : dictIsRehashing d = true
  · rw [if_pos h1]
    intro hf
    rw [h1] at hf
    cases hf
  · rw [if_neg h1]
    have hnr : dictIsRehashing d = false := by simpa using h1
    by_cases h2 : (d.ht0.size == 0) = true
    · rw [if_pos h2]
      obtain ⟨hsz, _⟩ := expand_install_ht0 d DICT_HT_INITIAL_SIZE w hnr (by simpa using h2)
      intro _
      rw [hsz]
      have := (dictNextPower_pow DICT_HT_INITIAL_SIZE).2
      omega
    · rw [if_neg h2]
      have hpos : 0 < d.ht0.size := by
        have hx : d.ht0.size ≠ 0 := by simpa using h2
        omega
      by_cases h3 : (d.ht0.size ≤ d.ht0.used &&
          (c || decide (5 * d.ht0.size ≤ d.ht0.used))) = true
      · rw [if_pos h3]
        exact expand_pos_of_size_ne d (d.ht0.used + 1) (by omega)
      · rw [if_neg h3]
        intro _
        exact hpos

end Dict

namespace Dict

/-- dictAddRaw preserves the invariant; an insert grows the live entry
count by one and a duplicate leaves it unchanged. -/
theorem WF_dictAddRaw (c : Bool) (d : dict) (key : Nat) (w : WF d) :
    WF (dictAddRaw c d key).1 ∧
    (∀ loc, (dictAddRaw c d key).2.1 = some loc →
      dictSize (dictAddRaw c d key).1 = dictSize d + 1) ∧
    ((dictAddRaw c d key).2.1 = none →
      dictSize (dictAddRaw c d key).1 = dictSize d) := by
  unfold dictAddRaw
  dsimp only []
  have wd1 : WF (if dictIsRehashing d then dictRehashStep d else d) ∧
      dictSize (if dictIsRehashing d then dictRehashStep d else d) = dictSize d := by
    by_cases h : dictIsRehashing d = true
    · simp only [h, if_true]
      exact WF_dictRehashStep d w
    · simp only [h, Bool.false_eq_true, if_false]
      exact ⟨w, trivial⟩
  set d1 := (if dictIsRehashing d then dictRehashStep d else d) with hd1
  obtain ⟨w2, hs2⟩ := WF_expandIfNeeded c d1 wd1.1
  have hpos0 := expandIfNeeded_pos c d1 wd1.1
  set d2 := (dictExpandIfNeeded c d1).1 with hd2
  have hsz2 : dictSize d2 = dictSize d := by rw [hs2, wd1.2]
  cases hks : dictKeyIndexSearch d2 key (dictHashKey d2 key) with
  | error ex =>
    dsimp only []
    refine ⟨w2, ?_, ?_⟩
    · intro loc h
      cases h
    · intro _
      exact hsz2
  | ok idx =>
    dsimp only []
    by_cases hr2 : dictIsRehashing d2 = true
    · rw [if_pos hr2]
      have hloc := (keyIndexSearch_ok d2 key (dictHashKey d2 key) idx hks).2 hr2
      have hidx : idx < d2.ht1.size := by
        have hm : d2.ht1.sizemask = d2.ht1.size - 1 := w2.ht1_mask
        have hp : 0 < d2.ht1.size := w2.rehash_ht1 ((rehashing_iff d2).mp hr2)
        have hle : idx ≤ d2.ht1.sizemask := by
          rw [hloc]
          exact Nat.and_le_right
        omega
      obtain ⟨wi, hsi⟩ := WF_insert_ht1 d2
        (dictSetKey d2 { key := 0, val := 0 } key) idx w2 hr2 hidx
      refine ⟨wi, fun loc h => ?_, fun h => by cases h⟩
      rw [hsi, hsz2]
    · rw [if_neg hr2]
      rw [Bool.not_eq_true] at hr2
      have hloc := (keyIndexSearch_ok d2 key (dictHashKey d2 key) idx hks).1 hr2
      have hidx : idx < d2.ht0.size := by
        have hm : d2.ht0.sizemask = d2.ht0.size - 1 := w2.ht0_mask
        have hp : 0 < d2.ht0.size := hpos0 hr2
        have hle : idx ≤ d2.ht0.sizemask := by
          rw [hloc]
          exact Nat.and_le_right
        omega
      obtain ⟨wi, hsi⟩ := WF_insert_ht0 d2
        (dictSetKey d2 { key := 0, val := 0 } key) idx w2 hr2 hidx
      refine ⟨wi, fun loc h => ?_, fun h => by cases h⟩
      rw [hsi, hsz2]

/-- Rewriting the head entry of a bucket in place preserves the invariant
and the live entry count. -/
theorem WF_updateEntryAt (d : dict) (loc : Bool × Nat)
    (f : dictEntry → dictEntry) (w : WF d) :
    WF (updateEntryAt d loc f) ∧
    dictSize (updateEntryAt d loc f) = dictSize d := by
  obtain ⟨b, idx⟩ := loc
  cases b
  · unfold updateEntryAt
    dsimp only []
    generalize hx : (match bucketAt d.ht0 idx with
      | [] => ([] : List dictEntry)
      | e :: rest => f e :: rest) = x
    have hxlen : x.length = (bucketAt d.ht0 idx).length := by
      rw [← hx]
      cases bucketAt d.ht0 idx <;> simp
    by_cases hin : idx < d.ht0.table.length
    · have hset := sum_map_set d.ht0.table idx x hin
      have hu0 := w.ht0_used
      rw [length_htEntries] at hu0
      have hbd : d.ht0.table.getD idx [] = bucketAt d.ht0 idx := rfl
      rw [hbd] at hset
      constructor
      · refine ⟨?_, w.ht1_len, w.ht0_pow, w.ht1_pow, w.ht0_mask, w.ht1_mask,
          ?_, w.ht1_used, w.idle_ht1, w.idx_nonneg, ?_, w.rehash_ht1⟩
        · simpa using w.ht0_len
        · simp only [htEntries]
          rw [List.length_join]
          omega
        · intro i hi
          simp only at hi
          by_cases hieq : i = idx
          · subst hieq
            have hold : bucketAt d.ht0 i = [] := w.low_empty i hi
            have hxe : x = [] := by
              rw [← hx, hold]
            simp only [bucketAt]
            rw [bucketGetD_set_self d.ht0.table i x hin, hxe]
          · rw [bucketAt, bucketGetD_set_ne d.ht0.table idx i x
              (fun hc => hieq hc.symm)]
            exact w.low_empty i hi
      · simp [dictSize]
    · have hnoop : d.ht0.table.set idx x = d.ht0.table :=
        List.set_eq_of_length_le (Nat.le_of_not_lt hin)
      rw [hnoop]
      exact ⟨w, rfl⟩
  · unfold updateEntryAt
    dsimp only []
    generalize hx : (match bucketAt d.ht1 idx with
      | [] => ([] : List dictEntry)
      | e :: rest => f e :: rest) = x
    have hxlen : x.length = (bucketAt d.ht1 idx).length := by
      rw [← hx]
      cases bucketAt d.ht1 idx <;> simp
    by_cases hin : idx < d.ht1.table.length
    · have hset := sum_map_set d.ht1.table idx x hin
      have hu1 := w.ht1_used
      rw [length_htEntries] at hu1
      have hbd : d.ht1.table.getD idx [] = bucketAt d.ht1 idx := rfl
      rw [hbd] at hset
      constructor
      · refine ⟨w.ht0_len, ?_, w.ht0_pow, w.ht1_pow, w.ht0_mask, w.ht1_mask,
          w.ht0_used, ?_, ?_, w.idx_nonneg, w.low_empty, w.rehash_ht1⟩
        · simpa using w.ht1_len
        · simp only [htEntries]
          rw [List.length_join]
          omega
        · intro h
          obtain ⟨hz, htb⟩ := w.idle_ht1 h
          rw [htb] at hin
          simp at hin
      · simp [dictSize]
    · have hnoop : d.ht1.table.set idx x = d.ht1.table :=
        List.set_eq_of_length_le (Nat.le_of_not_lt hin)
      rw [hnoop]
      exact ⟨w, rfl⟩

end Dict

namespace Dict

/-- dictAdd preserves the invariant; DICT_OK means one more live entry,
anything else is DICT_ERR with the count unchanged. -/
theorem WF_dictAdd (c : Bool) (d : dict) (k v : Nat) (w : WF d) :
    WF (dictAdd c d k v).1 ∧
    ((dictAdd c d k v).2 = DICT_OK →
      dictSize (dictAdd c d k v).1 = dictSize d + 1) ∧
    ((dictAdd c d k v).2 ≠ DICT_OK →
      (dictAdd c d k v).2 = DICT_ERR ∧
      dictSize (dictAdd c d k v).1 = dictSize d) := by
  obtain ⟨wr, hsome, hnone⟩ := WF_dictAddRaw c d k w
  unfold dictAdd
  cases hraw : dictAddRaw c d k with
  | mk d2 rest =>
    rw [hraw] at wr hsome hnone
    obtain ⟨opt, ex⟩ := rest
    cases opt with
    | none =>
      dsimp only []
      refine ⟨wr, ?_, ?_⟩
      · intro h
        cases h
      · intro _
        exact ⟨rfl, hnone rfl⟩
    | some loc =>
      dsimp only []
      obtain ⟨wu, hsu⟩ := WF_updateEntryAt d2 loc (fun e => dictSetVal d2 e v) wr
      refine ⟨wu, ?_, ?_⟩
      · intro _
        rw [hsu]
        exact hsome loc rfl
      · intro h
        exact absurd rfl h

/-- Unlinking a found entry shortens the chain by exactly one. -/
theorem removeFromChain_some (d : dict) (key : Nat) :
    ∀ (chain : List dictEntry) (he : dictEntry) (rest : List dictEntry),
      removeFromChain d key chain = (some he, rest) →
      rest.length + 1 = chain.length := by
  intro chain
  induction chain with
  | nil =>
    intro he rest h
    simp [removeFromChain] at h
  | cons x xs ih =>
    intro he rest h
    unfold removeFromChain at h
    dsimp only [] at h
    by_cases hc : dictCompareKeys d key x.key = true
    · rw [if_pos hc] at h
      injection h with h1 h2
      rw [← h2]
      simp
    · rw [if_neg hc] at h
      cases hr : removeFromChain d key xs with
      | mk o c2 =>
        rw [hr] at h
        injection h with h1 h2
        subst h1
        have := ih he c2 hr
        rw [← h2]
        simp
        omega

end Dict

namespace Dict

/-- Unlinking one entry from a bucket of ht[0] preserves the invariant and
removes exactly one live entry. -/
theorem WF_remove_ht0 (d : dict) (idx : Nat) (chain2 : List dictEntry)
    (w : WF d) (hlen : chain2.length + 1 = (bucketAt d.ht0 idx).length) :
    WF { d with ht0 := { d.ht0 with
          table := d.ht0.table.set idx chain2, used := d.ht0.used - 1 } } ∧
    dictSize { d with ht0 := { d.ht0 with
          table := d.ht0.table.set idx chain2, used := d.ht0.used - 1 } } + 1
      = dictSize d := by
  have hne : bucketAt d.ht0 idx ≠ [] := by
    intro hc
    rw [hc] at hlen
    simp at hlen
  have hin : idx < d.ht0.table.length := lt_length_of_bucket_ne d.ht0 idx hne
  have hset := sum_map_set d.ht0.table idx chain2 hin
  have hbd : d.ht0.table.getD idx [] = bucketAt d.ht0 idx := rfl
  rw [hbd] at hset
  have hu0 := w.ht0_used
  rw [length_htEntries] at hu0
  constructor
  · refine ⟨?_, w.ht1_len, w.ht0_pow, w.ht1_pow, w.ht0_mask, w.ht1_mask,
      ?_, w.ht1_used, w.idle_ht1, w.idx_nonneg, ?_, w.rehash_ht1⟩
    · simpa using w.ht0_len
    · simp only [htEntries]
      rw [List.length_join]
      omega
    · intro i hi
      simp only at hi
      by_cases hieq : i = idx
      · subst hieq
        have hold : bucketAt d.ht0 i = [] := w.low_empty i hi
        exact absurd hold hne
      · rw [bucketAt, bucketGetD_set_ne d.ht0.table idx i chain2
          (fun hc => hieq hc.symm)]
        exact w.low_empty i hi
  · simp only [dictSize]
    omega

/-- Unlinking one entry from a bucket of ht[1] preserves the invariant and
removes exactly one live entry. -/
theorem WF_remove_ht1 (d : dict) (idx : Nat) (chain2 : List dictEntry)
    (w : WF d) (hlen : chain2.length + 1 = (bucketAt d.ht1 idx).length) :
    WF { d with ht1 := { d.ht1 with
          table := d.ht1.table.set idx chain2, used := d.ht1.used - 1 } } ∧
    dictSize { d with ht1 := { d.ht1 with
          table := d.ht1.table.set idx chain2, used := d.ht1.used - 1 } } + 1
      = dictSize d := by
  have hne : bucketAt d.ht1 idx ≠ [] := by
    intro hc
    rw [hc] at hlen
    simp at hlen
  have hin : idx < d.ht1.table.length := lt_length_of_bucket_ne d.ht1 idx hne
  have hset := sum_map_set d.ht1.table idx chain2 hin
  have hbd : d.ht1.table.getD idx [] = bucketAt d.ht1 idx := rfl
  rw [hbd] at hset
  have hu1 := w.ht1_used
  rw [length_htEntries] at hu1
  constructor
  · refine ⟨w.ht0_len, ?_, w.ht0_pow, w.ht1_pow, w.ht0_mask, w.ht1_mask,
      w.ht0_used, ?_, ?_, w.idx_nonneg, w.low_empty, w.rehash_ht1⟩
    · simpa using w.ht1_len
    · simp only [htEntries]
      rw [List.length_join]
      omega
    · intro h
      obtain ⟨hz, htb⟩ := w.idle_ht1 h
      rw [htb] at hin
      simp at hin
  · simp only [dictSize]
    omega

end Dict

namespace Dict

/-- The generic delete preserves the invariant; unlinking an entry removes
exactly one from the live count, a miss changes nothing. -/
theorem WF_dictGenericDelete (d : dict) (key : Nat) (w : WF d) :
    WF (dictGenericDelete d key).1 ∧
    (∀ he, (dictGenericDelete d key).2 = some he →
      dictSize (dictGenericDelete d key).1 + 1 = dictSize d) ∧
    ((dictGenericDelete d key).2 = none →
      dictSize (dictGenericDelete d key).1 = dictSize d) := by
  unfold dictGenericDelete
  by_cases hz : (d.ht0.used + d.ht1.used == 0) = true
  · rw [if_pos hz]
    refine ⟨w, ?_, ?_⟩
    · intro he h
      cases h
    · intro _
      rfl
  · rw [if_neg hz]
    dsimp only []
    have wd1 : WF (if dictIsRehashing d then dictRehashStep d else d) ∧
        dictSize (if dictIsRehashing d then dictRehashStep d else d)
          = dictSize d := by
      by_cases h : dictIsRehashing d = true
      · simp only [h, if_true]
        exact WF_dictRehashStep d w
      · simp only [h, Bool.false_eq_true, if_false]
        exact ⟨w, trivial⟩
    set d1 := (if dictIsRehashing d then dictRehashStep d else d) with hd1
    obtain ⟨w1, hs1⟩ := wd1
    cases hr0 : removeFromChain d1 key
        (bucketAt d1.ht0 (dictHashKey d1 key &&& d1.ht0.sizemask)) with
    | mk o0 c0 =>
      cases o0 with
      | some he =>
        dsimp only []
        have hlen := removeFromChain_some d1 key _ he c0 hr0
        obtain ⟨wr, hsr⟩ := WF_remove_ht0 d1
          (dictHashKey d1 key &&& d1.ht0.sizemask) c0 w1 hlen
        refine ⟨wr, ?_, ?_⟩
        · intro he2 _
          rw [hsr, hs1]
        · intro h
          cases h
      | none =>
        dsimp only []
        by_cases hnr : (!dictIsRehashing d1) = true
        · rw [if_pos hnr]
          refine ⟨w1, ?_, ?_⟩
          · intro he h
            cases h
          · intro _
            exact hs1
        · rw [if_neg hnr]
          cases hr1 : removeFromChain d1 key
              (bucketAt d1.ht1 (dictHashKey d1 key &&& d1.ht1.sizemask)) with
          | mk o1 c1 =>
            cases o1 with
            | some he =>
              dsimp only []
              have hlen := removeFromChain_some d1 key _ he c1 hr1
              obtain ⟨wr, hsr⟩ := WF_remove_ht1 d1
                (dictHashKey d1 key &&& d1.ht1.sizemask) c1 w1 hlen
              refine ⟨wr, ?_, ?_⟩
              · intro he2 _
                rw [hsr, hs1]
              · intro h
                cases h
            | none =>
              dsimp only []
              refine ⟨w1, ?_, ?_⟩
              · intro he h
                cases h
              · intro _
                exact hs1

/-- dictDelete preserves the invariant; DICT_OK removes one live entry and
any other return is DICT_ERR with the count unchanged. -/
theorem WF_dictDelete (d : dict) (key : Nat) (w : WF d) :
    WF (dictDelete d key).1 ∧
    ((dictDelete d key).2 = DICT_OK →
      dictSize (dictDelete d key).1 + 1 = dictSize d) ∧
    ((dictDelete d key).2 ≠ DICT_OK →
      (dictDelete d key).2 = DICT_ERR ∧
      dictSize (dictDelete d key).1 = dictSize d) := by
  obtain ⟨wg, hsome, hnone⟩ := WF_dictGenericDelete d key w
  unfold dictDelete
  cases hgd : dictGenericDelete d key with
  | mk d2 opt =>
    rw [hgd] at wg hsome hnone
    cases opt with
    | some he =>
      dsimp only []
      refine ⟨wg, ?_, ?_⟩
      · intro _
        exact hsome he rfl
      · intro h
        exact absurd rfl h
    | none =>
      dsimp only []
      refine ⟨wg, ?_, ?_⟩
      · intro h
        cases h
      · intro _
        exact ⟨rfl, hnone rfl⟩

/-- Every reachable dictionary state is well formed. -/
theorem Reachable_WF (d : dict) (h : Reachable d) : WF d := by
  induction h with
  | create t priv => exact WF_create t priv
  | add c k v _ ih => exact (WF_dictAdd c _ k v ih).1
  | del k _ ih => exact (WF_dictDelete _ k ih).1
  | expand n _ ih => exact (WF_expand _ n ih).1
  | rehash n _ ih => exact (WF_dictRehash _ n ih).1

end Dict

/-- C3: in every reachable dictionary state, when rehashidx is -1 ht[1] has
size 0 and holds no live entry (so every live entry is in ht[0]); when
rehashidx is not -1, every ht[0] bucket below rehashidx is empty, and hence
every live entry sits in an ht[0] bucket at index at least rehashidx or in
ht[1]. -/
theorem claim_C3_rehash_invariant (d : Dict.dict) (h : Dict.Reachable d) :
    (d.rehashidx = -1 →
      d.ht1.size = 0 ∧ Dict.htEntries d.ht1 = []) ∧
    (d.rehashidx ≠ -1 →
      (∀ i : Nat, (i : Int) < d.rehashidx → Dict.bucketAt d.ht0 i = []) ∧
      (∀ i : Nat, ∀ e ∈ Dict.bucketAt d.ht0 i, d.rehashidx ≤ (i : Int))) := by
  have w := Dict.Reachable_WF d h
  constructor
  · intro hr
    obtain ⟨hz, ht⟩ := w.idle_ht1 hr
    refine ⟨hz, ?_⟩
    rw [Dict.htEntries, ht]
    rfl
  · intro _
    refine ⟨w.low_empty, ?_⟩
    intro i e he
    by_contra hlt
    rw [not_le] at hlt
    rw [w.low_empty i hlt] at he
    cases he

/-- Witness for C3 at the freshly created dictionary. -/
theorem claim_C3_witness :
    ((Dict.dictCreate Dict.natType 0).rehashidx = -1 →
      (Dict.dictCreate Dict.natType 0).ht1.size = 0 ∧
      Dict.htEntries (Dict.dictCreate Dict.natType 0).ht1 = []) ∧
    ((Dict.dictCreate Dict.natType 0).rehashidx ≠ -1 →
      (∀ i : Nat, (i : Int) < (Dict.dictCreate Dict.natType 0).rehashidx →
        Dict.bucketAt (Dict.dictCreate Dict.natType 0).ht0 i = []) ∧
      (∀ i : Nat, ∀ e ∈ Dict.bucketAt (Dict.dictCreate Dict.natType 0).ht0 i,
        (Dict.dictCreate Dict.natType 0).rehashidx ≤ (i : Int))) :=
  claim_C3_rehash_invariant _ (Dict.Reachable.create Dict.natType 0)

/-- Counterexample for C6 as stated: the freshly created dictionary is
reachable, yet its ht[0].size is 0, which is not a power of two. -/
theorem claim_C6_counterexample :
    Dict.Reachable (Dict.dictCreate Dict.natType 0) ∧
    ¬ ∃ k : Nat, (Dict.dictCreate Dict.natType 0).ht0.size = 2 ^ k := by
  refine ⟨Dict.Reachable.create _ _, ?_⟩
  rintro ⟨k, hk⟩
  simp [Dict.dictCreate, Dict.resetHt] at hk
  exact absurd hk.symm (pow_ne_zero k two_ne_zero)

/-- C6 amended: in every reachable dictionary state, every allocated table
(size nonzero) has a power-of-two size with sizemask = size - 1, and an
unallocated table has sizemask 0 (as the reset state sets it, rather than
the wrapped unsigned size - 1). -/
theorem claim_C6_power_of_two_amended (d : Dict.dict) (h : Dict.Reachable d) :
    (d.ht0.size ≠ 0 → ∃ k, d.ht0.size = 2 ^ k) ∧
    (d.ht1.size ≠ 0 → ∃ k, d.ht1.size = 2 ^ k) ∧
    (d.ht0.size ≠ 0 → d.ht0.sizemask = d.ht0.size - 1) ∧
    (d.ht1.size ≠ 0 → d.ht1.sizemask = d.ht1.size - 1) ∧
    (d.ht0.size = 0 → d.ht0.sizemask = 0) ∧
    (d.ht1.size = 0 → d.ht1.sizemask = 0) := by
  have w := Dict.Reachable_WF d h
  refine ⟨?_, ?_, fun _ => w.ht0_mask, fun _ => w.ht1_mask, ?_, ?_⟩
  · intro h0
    rcases w.ht0_pow with hz | hp
    · exact absurd hz h0
    · exact hp
  · intro h1
    rcases w.ht1_pow with hz | hp
    · exact absurd hz h1
    · exact hp
  · intro h0
    rw [w.ht0_mask, h0]
  · intro h1
    rw [w.ht1_mask, h1]

/-- Witness for C6 amended after one insertion (ht[0] allocated at size 4). -/
theorem claim_C6_witness :
    ((Dict.dictAdd true (Dict.dictCreate Dict.natType 0) 1 2).1.ht0.size ≠ 0 →
      ∃ k, (Dict.dictAdd true (Dict.dictCreate Dict.natType 0) 1 2).1.ht0.size = 2 ^ k) ∧
    ((Dict.dictAdd true (Dict.dictCreate Dict.natType 0) 1 2).1.ht1.size ≠ 0 →
      ∃ k, (Dict.dictAdd true (Dict.dictCreate Dict.natType 0) 1 2).1.ht1.size = 2 ^ k) ∧
    ((Dict.dictAdd true (Dict.dictCreate Dict.natType 0) 1 2).1.ht0.size ≠ 0 →
      (Dict.dictAdd true (Dict.dictCreate Dict.natType 0) 1 2).1.ht0.sizemask
        = (Dict.dictAdd true (Dict.dictCreate Dict.natType 0) 1 2).1.ht0.size - 1) ∧
    ((Dict.dictAdd true (Dict.dictCreate Dict.natType 0) 1 2).1.ht1.size ≠ 0 →
      (Dict.dictAdd true (Dict.dictCreate Dict.natType 0) 1 2).1.ht1.sizemask
        = (Dict.dictAdd true (Dict.dictCreate Dict.natType 0) 1 2).1.ht1.size - 1) ∧
    ((Dict.dictAdd true (Dict.dictCreate Dict.natType 0) 1 2).1.ht0.size = 0 →
      (Dict.dictAdd true (Dict.dictCreate Dict.natType 0) 1 2).1.ht0.sizemask = 0) ∧
    ((Dict.dictAdd true (Dict.dictCreate Dict.natType 0) 1 2).1.ht1.size = 0 →
      (Dict.dictAdd true (Dict.dictCreate Dict.natType 0) 1 2).1.ht1.sizemask = 0) :=
  claim_C6_power_of_two_amended _
    (Dict.Reachable.add true 1 2 (Dict.Reachable.create Dict.natType 0))

namespace Dict

/-- The net effect of one operation on the live entry count, keyed by its
status code. -/
theorem applyOp_size (d : dict) (op : DictOp) (w : WF d) :
    WF (applyOp d op).1 ∧
    dictSize (applyOp d op).1
        + (match op with
           | DictOp.del _ => if (applyOp d op).2 == DICT_OK then 1 else 0
           | _ => 0)
      = dictSize d
        + (match op with
           | DictOp.add _ _ _ => if (applyOp d op).2 == DICT_OK then 1 else 0
           | _ => 0) := by
  cases op with
  | add c k v =>
    obtain ⟨wf2, hok, herr⟩ := WF_dictAdd c d k v w
    refine ⟨wf2, ?_⟩
    by_cases h : (dictAdd c d k v).2 = DICT_OK
    · simp only [applyOp]
      rw [hok h]
      simp [h]
    · obtain ⟨_, hsz⟩ := herr h
      simp only [applyOp]
      rw [hsz]
      simp [h]
  | del k =>
    obtain ⟨wf2, hok, herr⟩ := WF_dictDelete d k w
    refine ⟨wf2, ?_⟩
    by_cases h : (dictDelete d k).2 = DICT_OK
    · simp only [applyOp]
      rw [← hok h]
      simp [h]
    · obtain ⟨_, hsz⟩ := herr h
      simp only [applyOp]
      rw [hsz]
      simp [h]
  | expand n =>
    obtain ⟨wf2, hsz⟩ := WF_expand d n w
    refine ⟨wf2, ?_⟩
    simpa [applyOp] using hsz
  | rehash n =>
    obtain ⟨wf2, hsz⟩ := WF_dictRehash d n w
    refine ⟨wf2, ?_⟩
    simpa [applyOp] using hsz

/-- Running a trace, the final live entry count plus the successful deletes
equals the initial count plus the successful adds. -/
theorem runOps_size (ops : List DictOp) : ∀ d : dict, WF d →
    dictSize (runOps d ops) + countOkDels d ops
      = dictSize d + countOkAdds d ops := by
  induction ops with
  | nil =>
    intro d _
    simp [runOps, countOkAdds, countOkDels]
  | cons op rest ih =>
    intro d w
    obtain ⟨w2, hstep⟩ := applyOp_size d op w
    have hrec := ih (applyOp d op).1 w2
    simp only [runOps, countOkAdds, countOkDels]
    cases op <;> simp only at hstep ⊢ <;> omega

end Dict

/-- C4: the size reported for a dictionary is ht[0].used + ht[1].used, and
after any trace of operations from a fresh dictionary it equals the number
of successful adds minus the number of successful deletes. -/
theorem claim_C4_size_accounting (t : Dict.dictType) (p : Nat)
    (ops : List Dict.DictOp) :
    (∀ d : Dict.dict, Dict.dictSize d = d.ht0.used + d.ht1.used) ∧
    Dict.dictSize (Dict.runOps (Dict.dictCreate t p) ops)
        + Dict.countOkDels (Dict.dictCreate t p) ops
      = Dict.countOkAdds (Dict.dictCreate t p) ops := by
  refine ⟨fun d => rfl, ?_⟩
  have h := Dict.runOps_size ops (Dict.dictCreate t p) (Dict.WF_create t p)
  have h0 : Dict.dictSize (Dict.dictCreate t p) = 0 := rfl
  omega

namespace Dict

/-- Two dictionaries with the same fingerprint agree on all six recorded
structural components. -/
theorem dictFingerprint_inj (a b : dict)
    (h : dictFingerprint a = dictFingerprint b) :
    htFingerprintInput a.ht0 = htFingerprintInput b.ht0 ∧
    htFingerprintInput a.ht1 = htFingerprintInput b.ht1 := by
  have h2 : (htFingerprintInput a.ht0, htFingerprintInput a.ht1)
      = (htFingerprintInput b.ht0, htFingerprintInput b.ht1) :=
    Encodable.encode_injective h
  exact ⟨congrArg Prod.fst h2, congrArg Prod.snd h2⟩

end Dict

/-- C9: an unsafe iterator records at creation a fingerprint derived from
(ht[0].table, ht[0].size, ht[0].used, ht[1].table, ht[1].size, ht[1].used);
the release check passes on the unmutated dictionary, passes only for a
state agreeing on all six recorded components (so every mutation visible in
them is detected), and fails after one successful add. -/
theorem claim_C9_unsafe_iterator_fingerprint (d : Dict.dict)
    (h : Dict.Reachable d) (c : Bool) (k v : Nat) :
    Dict.dictReleaseIteratorCheck (Dict.dictGetIterator d) d = true ∧
    (∀ d2 : Dict.dict,
      Dict.dictReleaseIteratorCheck (Dict.dictGetIterator d) d2 = true →
      Dict.htFingerprintInput d2.ht0 = Dict.htFingerprintInput d.ht0 ∧
      Dict.htFingerprintInput d2.ht1 = Dict.htFingerprintInput d.ht1) ∧
    ((Dict.dictAdd c d k v).2 = Dict.DICT_OK →
      Dict.dictReleaseIteratorCheck (Dict.dictGetIterator d)
        (Dict.dictAdd c d k v).1 = false) := by
  refine ⟨?_, ?_, ?_⟩
  · simp [Dict.dictReleaseIteratorCheck, Dict.dictGetIterator]
  · intro d2 hchk
    simp only [Dict.dictReleaseIteratorCheck, Dict.dictGetIterator,
      beq_iff_eq] at hchk
    exact Dict.dictFingerprint_inj d2 d hchk
  · intro hok
    have w := Dict.Reachable_WF d h
    have hsz := (Dict.WF_dictAdd c d k v w).2.1 hok
    simp only [Dict.dictReleaseIteratorCheck, Dict.dictGetIterator,
      beq_eq_false_iff_ne, ne_eq]
    intro heq
    obtain ⟨h0, h1⟩ := Dict.dictFingerprint_inj _ _ heq
    have hu0 : (Dict.dictAdd c d k v).1.ht0.used = d.ht0.used := by
      have := congrArg (fun x => x.2.2) h0
      simpa using this
    have hu1 : (Dict.dictAdd c d k v).1.ht1.used = d.ht1.used := by
      have := congrArg (fun x => x.2.2) h1
      simpa using this
    simp only [Dict.dictSize] at hsz
    omega

/-- Witness for C9 at the fresh dictionary with one concrete add. -/
theorem claim_C9_witness :
    Dict.dictReleaseIteratorCheck
        (Dict.dictGetIterator (Dict.dictCreate Dict.natType 0))
        (Dict.dictCreate Dict.natType 0) = true ∧
    (∀ d2 : Dict.dict,
      Dict.dictReleaseIteratorCheck
          (Dict.dictGetIterator (Dict.dictCreate Dict.natType 0)) d2 = true →
      Dict.htFingerprintInput d2.ht0
          = Dict.htFingerprintInput (Dict.dictCreate Dict.natType 0).ht0 ∧
      Dict.htFingerprintInput d2.ht1
          = Dict.htFingerprintInput (Dict.dictCreate Dict.natType 0).ht1) ∧
    ((Dict.dictAdd true (Dict.dictCreate Dict.natType 0) 1 2).2 = Dict.DICT_OK →
      Dict.dictReleaseIteratorCheck
          (Dict.dictGetIterator (Dict.dictCreate Dict.natType 0))
          (Dict.dictAdd true (Dict.dictCreate Dict.natType 0) 1 2).1 = false) :=
  claim_C9_unsafe_iterator_fingerprint (Dict.dictCreate Dict.natType 0)
    (Dict.Reachable.create Dict.natType 0) true 1 2
